import Mathlib

set_option linter.all false

/-!
Verification development for the GPU texture atlas and upload-belt subsystem
(crates/gpui/src/platform/linux/blade_belt.rs and blade_atlas.rs).

Modelling conventions:
* u64/usize/i32 byte sizes, offsets and pixel coordinates are modelled as Nat:
  every quantity in this subsystem is non-negative and far below any machine
  bound, so wrap-around does not arise; where the source can panic
  (assert, unwrap, usize underflow) the model returns Option.none.
* GPU object handles (buffers, textures, views) are modelled as Nat
  identifiers; creating an object draws a fresh identifier from a counter
  carried in the state.
* gpu::SyncPoint fences are modelled as Nat; the non-blocking poll
  gpu.wait_for(sp, 0) is modelled by a caller-supplied predicate
  passed : Nat -> Bool.
-/

namespace BladeSpec

/-- struct ReusableBuffer (blade_belt.rs): a GPU buffer handle with its byte
capacity. -/
structure ReusableBuffer where
  raw : Nat
  size : Nat
deriving DecidableEq

/-- gpu::BufferPiece: a buffer handle plus a byte offset into it. -/
structure BufferPiece where
  buffer : Nat
  offset : Nat
deriving DecidableEq

/-- struct BladeBeltDescriptor (the gpu::Memory field is not observable in
this model). -/
structure BladeBeltDescriptor where
  min_chunk_size : Nat
deriving DecidableEq

/-- struct BladeBelt: `buffers` holds the retired buffers, each paired with
the sync point of the frame that last used it; `active` holds the buffers
currently accepting writes, each paired with its write cursor. `next_raw`
models the GPU context handing out fresh buffer handles. -/
structure BladeBelt where
  desc : BladeBeltDescriptor
  buffers : List (ReusableBuffer × Nat)
  active : List (ReusableBuffer × Nat)
  next_raw : Nat
deriving DecidableEq

/-- BladeBelt::new. -/
def BladeBelt.new (desc : BladeBeltDescriptor) : BladeBelt :=
  { desc := desc, buffers := [], active := [], next_raw := 0 }

/-- The first loop of BladeBelt::alloc: scan the active buffers in order and,
at the first buffer whose cursor plus the requested size fits its capacity,
return the piece at the cursor and bump that cursor. -/
def allocActive (size : Nat) :
    List (ReusableBuffer × Nat) →
      Option (BufferPiece × List (ReusableBuffer × Nat))
  | [] => none
  | (rb, off) :: rest =>
    if off + size ≤ rb.size then
      some (⟨rb.raw, off⟩, (rb, off + size) :: rest)
    else
      match allocActive size rest with
      | some (p, rest2) => some (p, (rb, off) :: rest2)
      | none => none

/-- The second phase of BladeBelt::alloc: `position` over the retired
buffers, looking for the first whose capacity is at least the requested size
and whose sync point has passed, followed by `remove(index)`. Returns the
removed buffer and the remaining retired list. -/
def findRetired (size : Nat) (passed : Nat → Bool) :
    List (ReusableBuffer × Nat) →
      Option (ReusableBuffer × List (ReusableBuffer × Nat))
  | [] => none
  | (rb, sp) :: rest =>
    if size ≤ rb.size ∧ passed sp = true then
      some (rb, rest)
    else
      match findRetired size passed rest with
      | some (rb2, rest2) => some (rb2, (rb, sp) :: rest2)
      | none => none

/-- BladeBelt::alloc. Tier 1: first active buffer with room after its cursor.
Tier 2: first retired buffer with passed fence and sufficient capacity,
promoted to the end of the active list with cursor = size, piece at offset 0.
Tier 3: a brand-new buffer of capacity max(size, min_chunk_size), pushed
active with cursor = size, piece at offset 0. -/
def BladeBelt.alloc (b : BladeBelt) (size : Nat) (passed : Nat → Bool) :
    BufferPiece × BladeBelt :=
  match allocActive size b.active with
  | some (p, act) => (p, { b with active := act })
  | none =>
    match findRetired size passed b.buffers with
    | some (rb, rest) =>
      (⟨rb.raw, 0⟩,
       { b with buffers := rest, active := b.active ++ [(rb, size)] })
    | none =>
      let chunk_size := max size b.desc.min_chunk_size
      let rb : ReusableBuffer := ⟨b.next_raw, chunk_size⟩
      (⟨b.next_raw, 0⟩,
       { b with active := b.active ++ [(rb, size)],
                next_raw := b.next_raw + 1 })

/-- BladeBelt::flush: retire every active buffer, tagging each with the
just-submitted frame's sync point, and clear the active list. -/
def BladeBelt.flush (b : BladeBelt) (sp : Nat) : BladeBelt :=
  { b with buffers := b.buffers ++ b.active.map (fun a => (a.1, sp)),
           active := [] }

/-- BladeBelt::alloc_data for a non-empty slice of `len` elements whose
element type has size `sizeT` and alignment `align` (mem::size_of and
mem::align_of). Returns none where the source panics: the assert on empty
data, and the usize underflow of total_bytes - 1 when total_bytes = 0.
Otherwise returns the aligned piece and the belt state after the inner
alloc call. -/
def BladeBelt.alloc_data (b : BladeBelt) (align sizeT len : Nat)
    (passed : Nat → Bool) : Option (BufferPiece × BladeBelt) :=
  if len = 0 then none
  else
    let total_bytes := len * sizeT
    if total_bytes = 0 then none
    else
      let r := b.alloc (align + (total_bytes - 1)) passed
      let bp := r.1
      let rem := bp.offset % align
      let off := if rem = 0 then bp.offset else bp.offset + (align - rem)
      some (⟨bp.buffer, off⟩, r.2)

/-- Index of the first active buffer whose cursor plus size fits its
capacity (specification-side description of tier 1 of alloc). -/
def firstActiveFit (size : Nat) : List (ReusableBuffer × Nat) → Option Nat
  | [] => none
  | (rb, off) :: rest =>
    if off + size ≤ rb.size then some 0
    else
      match firstActiveFit size rest with
      | some j => some (j + 1)
      | none => none

/-- Index of the first retired buffer whose fence has passed and whose
capacity is at least size (specification-side description of tier 2). -/
def firstRetiredFit (size : Nat) (passed : Nat → Bool) :
    List (ReusableBuffer × Nat) → Option Nat
  | [] => none
  | (rb, sp) :: rest =>
    if size ≤ rb.size ∧ passed sp = true then some 0
    else
      match firstRetiredFit size passed rest with
      | some j => some (j + 1)
      | none => none

theorem firstActiveFit_lt (size : Nat) (l : List (ReusableBuffer × Nat)) :
    ∀ i, firstActiveFit size l = some i → i < l.length := by
  induction l with
  | nil => intro i h; simp [firstActiveFit] at h
  | cons e rest ih =>
    obtain ⟨rb, off⟩ := e
    intro i h
    simp only [firstActiveFit] at h
    by_cases hc : off + size ≤ rb.size
    · rw [if_pos hc] at h
      simp only [Option.some.injEq] at h
      simp only [List.length_cons]
      omega
    · rw [if_neg hc] at h
      cases hfr : firstActiveFit size rest with
      | none => rw [hfr] at h; cases h
      | some j =>
        rw [hfr] at h
        simp only [Option.some.injEq] at h
        have := ih j hfr
        simp only [List.length_cons]
        omega

theorem firstActiveFit_spec (size : Nat) (l : List (ReusableBuffer × Nat)) :
    ∀ i (hi : i < l.length), firstActiveFit size l = some i →
      ((l.get ⟨i, hi⟩).2 + size ≤ (l.get ⟨i, hi⟩).1.size ∧
       ∀ k (hk : k < l.length), k < i →
         ¬ ((l.get ⟨k, hk⟩).2 + size ≤ (l.get ⟨k, hk⟩).1.size)) := by
  induction l with
  | nil => intro i hi; simp at hi
  | cons e rest ih =>
    obtain ⟨rb, off⟩ := e
    intro i hi h
    simp only [firstActiveFit] at h
    by_cases hc : off + size ≤ rb.size
    · rw [if_pos hc] at h
      simp only [Option.some.injEq] at h
      subst h
      refine ⟨hc, ?_⟩
      intro k hk hki
      omega
    · rw [if_neg hc] at h
      cases hfr : firstActiveFit size rest with
      | none => rw [hfr] at h; cases h
      | some j =>
        rw [hfr] at h
        simp only [Option.some.injEq] at h
        subst h
        have hj : j < rest.length := firstActiveFit_lt size rest j hfr
        have hrec := ih j hj hfr
        refine ⟨hrec.1, ?_⟩
        intro k hk hki
        cases k with
        | zero => exact hc
        | succ k2 =>
          have hk2 : k2 < rest.length := by
            simp only [List.length_cons] at hk; omega
          exact hrec.2 k2 hk2 (by omega)

theorem firstActiveFit_none (size : Nat) (l : List (ReusableBuffer × Nat)) :
    firstActiveFit size l = none ↔ ∀ e ∈ l, ¬ (e.2 + size ≤ e.1.size) := by
  induction l with
  | nil => simp [firstActiveFit]
  | cons e rest ih =>
    obtain ⟨rb, off⟩ := e
    simp only [firstActiveFit]
    by_cases hc : off + size ≤ rb.size
    · rw [if_pos hc]
      simp only [List.mem_cons]
      constructor
      · intro h; cases h
      · intro h
        exact absurd hc (h (rb, off) (Or.inl rfl))
    · rw [if_neg hc]
      cases hfr : firstActiveFit size rest with
      | none =>
        simp only [List.mem_cons]
        constructor
        · intro _ e2 he2
          rcases he2 with rfl | he2
          · exact hc
          · exact (ih.mp hfr) e2 he2
        · intro _; trivial
      | some j =>
        simp only [List.mem_cons]
        constructor
        · intro h; cases h
        · intro h
          have : firstActiveFit size rest = none := by
            rw [ih]
            intro e2 he2
            exact h e2 (Or.inr he2)
          rw [this] at hfr
          cases hfr

theorem allocActive_eq_of_fit (size : Nat) (l : List (ReusableBuffer × Nat)) :
    ∀ i (hi : i < l.length), firstActiveFit size l = some i →
      allocActive size l =
        some (⟨(l.get ⟨i, hi⟩).1.raw, (l.get ⟨i, hi⟩).2⟩,
              l.set i ((l.get ⟨i, hi⟩).1, (l.get ⟨i, hi⟩).2 + size)) := by
  induction l with
  | nil => intro i hi; simp at hi
  | cons e rest ih =>
    obtain ⟨rb, off⟩ := e
    intro i hi h
    simp only [firstActiveFit] at h
    by_cases hc : off + size ≤ rb.size
    · rw [if_pos hc] at h
      simp only [Option.some.injEq] at h
      subst h
      simp only [allocActive, if_pos hc, List.get, List.set]
    · rw [if_neg hc] at h
      cases hfr : firstActiveFit size rest with
      | none => rw [hfr] at h; cases h
      | some j =>
        rw [hfr] at h
        simp only [Option.some.injEq] at h
        subst h
        have hj : j < rest.length := firstActiveFit_lt size rest j hfr
        have hrec := ih j hj hfr
        simp only [allocActive, if_neg hc, hrec, List.get, List.set]

theorem allocActive_eq_none (size : Nat) (l : List (ReusableBuffer × Nat)) :
    firstActiveFit size l = none → allocActive size l = none := by
  induction l with
  | nil => intro _; simp [allocActive]
  | cons e rest ih =>
    obtain ⟨rb, off⟩ := e
    intro h
    simp only [firstActiveFit] at h
    by_cases hc : off + size ≤ rb.size
    · rw [if_pos hc] at h; cases h
    · rw [if_neg hc] at h
      cases hfr : firstActiveFit size rest with
      | none =>
        simp only [allocActive, if_neg hc, ih hfr]
      | some j => rw [hfr] at h; cases h

theorem firstRetiredFit_lt (size : Nat) (passed : Nat → Bool)
    (l : List (ReusableBuffer × Nat)) :
    ∀ j, firstRetiredFit size passed l = some j → j < l.length := by
  induction l with
  | nil => intro j h; simp [firstRetiredFit] at h
  | cons e rest ih =>
    obtain ⟨rb, sp⟩ := e
    intro j h
    simp only [firstRetiredFit] at h
    by_cases hc : size ≤ rb.size ∧ passed sp = true
    · rw [if_pos hc] at h
      simp only [Option.some.injEq] at h
      simp only [List.length_cons]
      omega
    · rw [if_neg hc] at h
      cases hfr : firstRetiredFit size passed rest with
      | none => rw [hfr] at h; cases h
      | some j2 =>
        rw [hfr] at h
        simp only [Option.some.injEq] at h
        have := ih j2 hfr
        simp only [List.length_cons]
        omega

theorem firstRetiredFit_spec (size : Nat) (passed : Nat → Bool)
    (l : List (ReusableBuffer × Nat)) :
    ∀ j (hj : j < l.length), firstRetiredFit size passed l = some j →
      ((size ≤ (l.get ⟨j, hj⟩).1.size ∧ passed (l.get ⟨j, hj⟩).2 = true) ∧
       ∀ k (hk : k < l.length), k < j →
         ¬ (size ≤ (l.get ⟨k, hk⟩).1.size ∧ passed (l.get ⟨k, hk⟩).2 = true)) := by
  induction l with
  | nil => intro j hj; simp at hj
  | cons e rest ih =>
    obtain ⟨rb, sp⟩ := e
    intro j hj h
    simp only [firstRetiredFit] at h
    by_cases hc : size ≤ rb.size ∧ passed sp = true
    · rw [if_pos hc] at h
      simp only [Option.some.injEq] at h
      subst h
      refine ⟨hc, ?_⟩
      intro k hk hkj
      omega
    · rw [if_neg hc] at h
      cases hfr : firstRetiredFit size passed rest with
      | none => rw [hfr] at h; cases h
      | some j2 =>
        rw [hfr] at h
        simp only [Option.some.injEq] at h
        subst h
        have hj2 : j2 < rest.length := firstRetiredFit_lt size passed rest j2 hfr
        have hrec := ih j2 hj2 hfr
        refine ⟨hrec.1, ?_⟩
        intro k hk hkj
        cases k with
        | zero => exact hc
        | succ k2 =>
          have hk2 : k2 < rest.length := by
            simp only [List.length_cons] at hk; omega
          exact hrec.2 k2 hk2 (by omega)

theorem firstRetiredFit_none (size : Nat) (passed : Nat → Bool)
    (l : List (ReusableBuffer × Nat)) :
    firstRetiredFit size passed l = none ↔
      ∀ e ∈ l, ¬ (size ≤ e.1.size ∧ passed e.2 = true) := by
  induction l with
  | nil => simp [firstRetiredFit]
  | cons e rest ih =>
    obtain ⟨rb, sp⟩ := e
    simp only [firstRetiredFit]
    by_cases hc : size ≤ rb.size ∧ passed sp = true
    · rw [if_pos hc]
      simp only [List.mem_cons]
      constructor
      · intro h; cases h
      · intro h
        exact absurd hc (h (rb, sp) (Or.inl rfl))
    · rw [if_neg hc]
      cases hfr : firstRetiredFit size passed rest with
      | none =>
        simp only [List.mem_cons]
        constructor
        · intro _ e2 he2
          rcases he2 with rfl | he2
          · exact hc
          · exact (ih.mp hfr) e2 he2
        · intro _; trivial
      | some j =>
        simp only [List.mem_cons]
        constructor
        · intro h; cases h
        · intro h
          have : firstRetiredFit size passed rest = none := by
            rw [ih]
            intro e2 he2
            exact h e2 (Or.inr he2)
          rw [this] at hfr
          cases hfr

theorem findRetired_eq_of_fit (size : Nat) (passed : Nat → Bool)
    (l : List (ReusableBuffer × Nat)) :
    ∀ j (hj : j < l.length), firstRetiredFit size passed l = some j →
      findRetired size passed l = some ((l.get ⟨j, hj⟩).1, l.eraseIdx j) := by
  induction l with
  | nil => intro j hj; simp at hj
  | cons e rest ih =>
    obtain ⟨rb, sp⟩ := e
    intro j hj h
    simp only [firstRetiredFit] at h
    by_cases hc : size ≤ rb.size ∧ passed sp = true
    · rw [if_pos hc] at h
      simp only [Option.some.injEq] at h
      subst h
      simp only [findRetired, if_pos hc, List.get, List.eraseIdx]
    · rw [if_neg hc] at h
      cases hfr : firstRetiredFit size passed rest with
      | none => rw [hfr] at h; cases h
      | some j2 =>
        rw [hfr] at h
        simp only [Option.some.injEq] at h
        subst h
        have hj2 : j2 < rest.length := firstRetiredFit_lt size passed rest j2 hfr
        have hrec := ih j2 hj2 hfr
        simp only [findRetired, if_neg hc, hrec, List.get, List.eraseIdx]

theorem findRetired_eq_none (size : Nat) (passed : Nat → Bool)
    (l : List (ReusableBuffer × Nat)) :
    firstRetiredFit size passed l = none → findRetired size passed l = none := by
  induction l with
  | nil => intro _; simp [findRetired]
  | cons e rest ih =>
    obtain ⟨rb, sp⟩ := e
    intro h
    simp only [firstRetiredFit] at h
    by_cases hc : size ≤ rb.size ∧ passed sp = true
    · rw [if_pos hc] at h; cases h
    · rw [if_neg hc] at h
      cases hfr : firstRetiredFit size passed rest with
      | none =>
        simp only [findRetired, if_neg hc, ih hfr]
      | some j => rw [hfr] at h; cases h

/-- C3: BladeBelt::alloc follows exactly the three-tier algorithm. Tier 1:
the first active buffer whose cursor plus size fits its capacity yields the
range at its cursor and the cursor is bumped by size. Tier 2: otherwise the
first retired buffer whose fence has passed (non-blocking poll) and whose
total capacity is at least size is promoted to active and the range is at
offset 0. Tier 3: otherwise a brand-new buffer of capacity
max(size, min_chunk_size) is created and marked active, and the range of
the request is at offset 0 — allocation never fails (the result type is a
total pair, so no failure path exists short of device out-of-memory at
buffer creation, which is outside the model). -/
theorem belt_alloc_three_tier (b : BladeBelt) (size : Nat) (passed : Nat → Bool) :
    (∀ i (hi : i < b.active.length), firstActiveFit size b.active = some i →
        (b.active.get ⟨i, hi⟩).2 + size ≤ (b.active.get ⟨i, hi⟩).1.size ∧
        (∀ k (hk : k < b.active.length), k < i →
          ¬ ((b.active.get ⟨k, hk⟩).2 + size ≤ (b.active.get ⟨k, hk⟩).1.size)) ∧
        b.alloc size passed =
          (⟨(b.active.get ⟨i, hi⟩).1.raw, (b.active.get ⟨i, hi⟩).2⟩,
           { b with active := b.active.set i ((b.active.get ⟨i, hi⟩).1, (b.active.get ⟨i, hi⟩).2 + size) })) ∧
    (firstActiveFit size b.active = none →
      ∀ j (hj : j < b.buffers.length), firstRetiredFit size passed b.buffers = some j →
        size ≤ (b.buffers.get ⟨j, hj⟩).1.size ∧
        passed (b.buffers.get ⟨j, hj⟩).2 = true ∧
        (∀ k (hk : k < b.buffers.length), k < j →
          ¬ (size ≤ (b.buffers.get ⟨k, hk⟩).1.size ∧
             passed (b.buffers.get ⟨k, hk⟩).2 = true)) ∧
        b.alloc size passed =
          (⟨(b.buffers.get ⟨j, hj⟩).1.raw, 0⟩,
           { b with buffers := b.buffers.eraseIdx j,
                    active := b.active ++ [((b.buffers.get ⟨j, hj⟩).1, size)] })) ∧
    (firstActiveFit size b.active = none →
      firstRetiredFit size passed b.buffers = none →
        b.alloc size passed =
          (⟨b.next_raw, 0⟩,
           { b with active := b.active ++ [(⟨b.next_raw, max size b.desc.min_chunk_size⟩, size)],
                    next_raw := b.next_raw + 1 })) := by
  refine ⟨?_, ?_, ?_⟩
  · intro i hi hfit
    have hspec := firstActiveFit_spec size b.active i hi hfit
    refine ⟨hspec.1, hspec.2, ?_⟩
    have ha := allocActive_eq_of_fit size b.active i hi hfit
    simp only [BladeBelt.alloc, ha]
  · intro hnone j hj hfit
    have hspec := firstRetiredFit_spec size passed b.buffers j hj hfit
    refine ⟨hspec.1.1, hspec.1.2, hspec.2, ?_⟩
    have ha := allocActive_eq_none size b.active hnone
    have hf := findRetired_eq_of_fit size passed b.buffers j hj hfit
    simp only [BladeBelt.alloc, ha, hf]
  · intro hnone1 hnone2
    have ha := allocActive_eq_none size b.active hnone1
    have hf := findRetired_eq_none size passed b.buffers hnone2
    simp only [BladeBelt.alloc, ha, hf]

/-- Constant predicate: every fence has passed. -/
def alwaysPassed : Nat → Bool := fun _ => true

/-- Constant predicate: no fence has passed. -/
def neverPassed : Nat → Bool := fun _ => false

/-- Witness for belt_alloc_three_tier: each of the three tiers exercised at
a concrete belt. -/
theorem belt_alloc_three_tier_witness :
    ((BladeBelt.mk ⟨16⟩ [] [(⟨0, 16⟩, 4)] 1).alloc 4 alwaysPassed =
      (⟨0, 4⟩, BladeBelt.mk ⟨16⟩ [] [(⟨0, 16⟩, 8)] 1)) ∧
    ((BladeBelt.mk ⟨16⟩ [(⟨0, 16⟩, 5)] [] 1).alloc 4 alwaysPassed =
      (⟨0, 0⟩, BladeBelt.mk ⟨16⟩ [] [(⟨0, 16⟩, 4)] 1)) ∧
    ((BladeBelt.mk ⟨16⟩ [] [] 0).alloc 4 alwaysPassed =
      (⟨0, 0⟩, BladeBelt.mk ⟨16⟩ [] [(⟨0, 16⟩, 4)] 1)) := by
  refine ⟨?_, ?_, ?_⟩
  · have h :=
      ((belt_alloc_three_tier (BladeBelt.mk ⟨16⟩ [] [(⟨0, 16⟩, 4)] 1) 4
        alwaysPassed).1 0 (by decide) (by decide)).2.2
    rw [h]; rfl
  · have h :=
      (belt_alloc_three_tier (BladeBelt.mk ⟨16⟩ [(⟨0, 16⟩, 5)] [] 1) 4
        alwaysPassed).2.1 (by decide) 0 (by decide) (by decide)
    rw [h.2.2.2]; rfl
  · have h :=
      (belt_alloc_three_tier (BladeBelt.mk ⟨16⟩ [] [] 0) 4
        alwaysPassed).2.2 (by decide) (by decide)
    rw [h]; rfl

/-- All buffer handles a belt owns: retired ones first, then active ones. -/
def BladeBelt.raws (b : BladeBelt) : List Nat :=
  b.buffers.map (fun x => x.1.raw) ++ b.active.map (fun x => x.1.raw)

/-- Well-formedness: the belt's buffer handles are pairwise distinct and
below the fresh-handle counter. Holds for every belt reachable from
BladeBelt::new. -/
def BladeBelt.WF (b : BladeBelt) : Prop :=
  b.raws.Nodup ∧ ∀ r ∈ b.raws, r < b.next_raw

theorem allocActive_map_fst (size : Nat) (l : List (ReusableBuffer × Nat)) :
    ∀ p l2, allocActive size l = some (p, l2) →
      l2.map (fun x => x.1) = l.map (fun x => x.1) := by
  induction l with
  | nil => intro p l2 h; simp [allocActive] at h
  | cons e rest ih =>
    obtain ⟨rb, off⟩ := e
    intro p l2 h
    simp only [allocActive] at h
    by_cases hc : off + size ≤ rb.size
    · rw [if_pos hc] at h
      simp only [Option.some.injEq, Prod.mk.injEq] at h
      obtain ⟨-, rfl⟩ := h
      simp
    · rw [if_neg hc] at h
      cases ha : allocActive size rest with
      | none => rw [ha] at h; cases h
      | some pr =>
        obtain ⟨p2, rest2⟩ := pr
        rw [ha] at h
        simp only [Option.some.injEq, Prod.mk.injEq] at h
        obtain ⟨rfl, rfl⟩ := h
        simp only [List.map_cons]
        rw [ih p2 rest2 ha]

theorem allocActive_mem_buffer (size : Nat) (l : List (ReusableBuffer × Nat)) :
    ∀ p l2, allocActive size l = some (p, l2) →
      ∃ rb cur, (rb, cur) ∈ l2 ∧ rb.raw = p.buffer := by
  induction l with
  | nil => intro p l2 h; simp [allocActive] at h
  | cons e rest ih =>
    obtain ⟨rb, off⟩ := e
    intro p l2 h
    simp only [allocActive] at h
    by_cases hc : off + size ≤ rb.size
    · rw [if_pos hc] at h
      simp only [Option.some.injEq, Prod.mk.injEq] at h
      obtain ⟨rfl, rfl⟩ := h
      exact ⟨rb, off + size, List.mem_cons_self _ _, rfl⟩
    · rw [if_neg hc] at h
      cases ha : allocActive size rest with
      | none => rw [ha] at h; cases h
      | some pr =>
        obtain ⟨p2, rest2⟩ := pr
        rw [ha] at h
        simp only [Option.some.injEq, Prod.mk.injEq] at h
        obtain ⟨rfl, rfl⟩ := h
        obtain ⟨rb2, cur, hmem, hraw⟩ := ih p2 rest2 ha
        exact ⟨rb2, cur, List.mem_cons_of_mem _ hmem, hraw⟩

theorem findRetired_found (size : Nat) (passed : Nat → Bool)
    (l : List (ReusableBuffer × Nat)) :
    ∀ rb rest, findRetired size passed l = some (rb, rest) →
      ∃ sp, passed sp = true ∧ size ≤ rb.size ∧ l.Perm ((rb, sp) :: rest) := by
  induction l with
  | nil => intro rb rest h; simp [findRetired] at h
  | cons e tail ih =>
    obtain ⟨rb0, sp0⟩ := e
    intro rb rest h
    simp only [findRetired] at h
    by_cases hc : size ≤ rb0.size ∧ passed sp0 = true
    · rw [if_pos hc] at h
      simp only [Option.some.injEq, Prod.mk.injEq] at h
      obtain ⟨rfl, rfl⟩ := h
      exact ⟨sp0, hc.2, hc.1, List.Perm.refl _⟩
    · rw [if_neg hc] at h
      cases hf : findRetired size passed tail with
      | none => rw [hf] at h; cases h
      | some pr =>
        obtain ⟨rb2, rest2⟩ := pr
        rw [hf] at h
        simp only [Option.some.injEq, Prod.mk.injEq] at h
        obtain ⟨rfl, rfl⟩ := h
        obtain ⟨sp, hp, hsz, hperm⟩ := ih rb2 rest2 hf
        refine ⟨sp, hp, hsz, ?_⟩
        exact (List.Perm.cons _ hperm).trans (List.Perm.swap _ _ _)

theorem findRetired_rest_mem (size : Nat) (passed : Nat → Bool)
    (l : List (ReusableBuffer × Nat)) :
    ∀ rb rest, findRetired size passed l = some (rb, rest) →
      ∀ e ∈ l, passed e.2 = false → e ∈ rest := by
  induction l with
  | nil => intro rb rest h; simp [findRetired] at h
  | cons e0 tail ih =>
    obtain ⟨rb0, sp0⟩ := e0
    intro rb rest h e he hpe
    simp only [findRetired] at h
    by_cases hc : size ≤ rb0.size ∧ passed sp0 = true
    · rw [if_pos hc] at h
      simp only [Option.some.injEq, Prod.mk.injEq] at h
      obtain ⟨rfl, rfl⟩ := h
      rcases List.mem_cons.mp he with rfl | he2
      · rw [hc.2] at hpe; cases hpe
      · exact he2
    · rw [if_neg hc] at h
      cases hf : findRetired size passed tail with
      | none => rw [hf] at h; cases h
      | some pr =>
        obtain ⟨rb2, rest2⟩ := pr
        rw [hf] at h
        simp only [Option.some.injEq, Prod.mk.injEq] at h
        obtain ⟨rfl, rfl⟩ := h
        rcases List.mem_cons.mp he with rfl | he2
        · exact List.mem_cons_self _ _
        · exact List.mem_cons_of_mem _ (ih rb2 rest2 hf e he2 hpe)

theorem map_raw_of_map_fst {l1 l2 : List (ReusableBuffer × Nat)}
    (h : l1.map (fun x => x.1) = l2.map (fun x => x.1)) :
    l1.map (fun x => x.1.raw) = l2.map (fun x => x.1.raw) := by
  have h2 := congrArg (List.map (fun rb : ReusableBuffer => rb.raw)) h
  simpa [List.map_map, Function.comp] using h2

theorem belt_alloc_case1 (b : BladeBelt) (size : Nat) (passed : Nat → Bool)
    (p : BufferPiece) (act : List (ReusableBuffer × Nat))
    (ha : allocActive size b.active = some (p, act)) :
    b.alloc size passed = (p, { b with active := act }) := by
  simp [BladeBelt.alloc, ha]

theorem belt_alloc_case2 (b : BladeBelt) (size : Nat) (passed : Nat → Bool)
    (rb : ReusableBuffer) (rest : List (ReusableBuffer × Nat))
    (ha : allocActive size b.active = none)
    (hf : findRetired size passed b.buffers = some (rb, rest)) :
    b.alloc size passed =
      (⟨rb.raw, 0⟩,
       { b with buffers := rest, active := b.active ++ [(rb, size)] }) := by
  simp [BladeBelt.alloc, ha, hf]

theorem belt_alloc_case3 (b : BladeBelt) (size : Nat) (passed : Nat → Bool)
    (ha : allocActive size b.active = none)
    (hf : findRetired size passed b.buffers = none) :
    b.alloc size passed =
      (⟨b.next_raw, 0⟩,
       { b with active := b.active ++ [(⟨b.next_raw, max size b.desc.min_chunk_size⟩, size)],
                next_raw := b.next_raw + 1 }) := by
  simp [BladeBelt.alloc, ha, hf]

theorem belt_alloc_WF (b : BladeBelt) (size : Nat) (passed : Nat → Bool)
    (h : b.WF) : ((b.alloc size passed).2).WF := by
  obtain ⟨hnd, hlt⟩ := h
  cases ha : allocActive size b.active with
  | some pr =>
    obtain ⟨p, act⟩ := pr
    rw [belt_alloc_case1 b size passed p act ha]
    have hraw : act.map (fun x => x.1.raw) = b.active.map (fun x => x.1.raw) :=
      map_raw_of_map_fst (allocActive_map_fst size b.active p act ha)
    constructor
    · simpa [BladeBelt.raws, hraw] using hnd
    · intro r hr
      apply hlt
      simpa [BladeBelt.raws, hraw] using hr
  | none =>
    cases hf : findRetired size passed b.buffers with
    | some pr =>
      obtain ⟨rb, rest⟩ := pr
      rw [belt_alloc_case2 b size passed rb rest ha hf]
      obtain ⟨sp, hsp, hsz, hperm⟩ := findRetired_found size passed b.buffers rb rest hf
      have hmap : (b.buffers.map (fun x => x.1.raw)).Perm
          (rb.raw :: rest.map (fun x => x.1.raw)) := by
        have h2 := hperm.map (fun x => x.1.raw)
        simpa using h2
      have hperm2 : (rest.map (fun x => x.1.raw) ++
          ((b.active ++ [(rb, size)]).map (fun x => x.1.raw))).Perm b.raws := by
        simp only [List.map_append, List.map_cons, List.map_nil]
        have s1 : (b.active.map (fun x => x.1.raw) ++ [rb.raw]).Perm
            (rb.raw :: b.active.map (fun x => x.1.raw)) :=
          List.perm_append_singleton _ _
        have s2 : (rest.map (fun x => x.1.raw) ++
            (b.active.map (fun x => x.1.raw) ++ [rb.raw])).Perm
            (rest.map (fun x => x.1.raw) ++
              (rb.raw :: b.active.map (fun x => x.1.raw))) :=
          List.Perm.append_left _ s1
        have s3 : (rest.map (fun x => x.1.raw) ++
            (rb.raw :: b.active.map (fun x => x.1.raw))).Perm
            (rb.raw :: (rest.map (fun x => x.1.raw) ++
              b.active.map (fun x => x.1.raw))) := List.perm_middle
        have s4 : ((rb.raw :: rest.map (fun x => x.1.raw)) ++
            b.active.map (fun x => x.1.raw)).Perm
            (b.buffers.map (fun x => x.1.raw) ++
              b.active.map (fun x => x.1.raw)) :=
          List.Perm.append_right _ hmap.symm
        exact (s2.trans s3).trans s4
      constructor
      · exact hperm2.symm.nodup hnd
      · intro r hr
        exact hlt r (hperm2.subset hr)
    | none =>
      rw [belt_alloc_case3 b size passed ha hf]
      have hraws : ({ b with
          active := b.active ++ [(⟨b.next_raw, max size b.desc.min_chunk_size⟩, size)],
          next_raw := b.next_raw + 1 } : BladeBelt).raws = b.raws ++ [b.next_raw] := by
        simp [BladeBelt.raws, List.map_append]
      constructor
      · rw [hraws]
        have hnotmem : b.next_raw ∉ b.raws := fun hmem =>
          absurd (hlt _ hmem) (by omega)
        exact ((List.perm_append_singleton _ _).nodup_iff).mpr
          (List.Nodup.cons hnotmem hnd)
      · intro r hr
        rw [hraws] at hr
        simp only [List.mem_append, List.mem_singleton] at hr
        rcases hr with hr2 | rfl
        · have := hlt r hr2
          simp only []
          omega
        · simp only []
          omega


theorem belt_flush_raws (b : BladeBelt) (sp : Nat) :
    (b.flush sp).raws = b.raws := by
  simp [BladeBelt.flush, BladeBelt.raws, List.map_map, Function.comp]

theorem belt_flush_WF (b : BladeBelt) (sp : Nat) (h : b.WF) : (b.flush sp).WF := by
  obtain ⟨hnd, hlt⟩ := h
  constructor
  · rw [belt_flush_raws]; exact hnd
  · intro r hr
    rw [belt_flush_raws] at hr
    exact hlt r hr

/-- One call against the belt: either an alloc (with the fence-poll results
the GPU would report at that moment) or a flush with a frame fence. -/
inductive BeltOp where
  | alloc : Nat → (Nat → Bool) → BeltOp
  | flush : Nat → BeltOp

/-- State transition of one belt call. -/
def BladeBelt.step (b : BladeBelt) : BeltOp → BladeBelt
  | BeltOp.alloc size passed => (b.alloc size passed).2
  | BeltOp.flush sp => b.flush sp

/-- Run a sequence of belt calls. -/
def BladeBelt.run (b : BladeBelt) : List BeltOp → BladeBelt
  | [] => b
  | op :: ops => (b.step op).run ops

theorem belt_new_WF (desc : BladeBeltDescriptor) : (BladeBelt.new desc).WF := by
  constructor
  · simp [BladeBelt.new, BladeBelt.raws]
  · intro r hr
    simp [BladeBelt.new, BladeBelt.raws] at hr

theorem belt_step_WF (b : BladeBelt) (op : BeltOp) (h : b.WF) : (b.step op).WF := by
  cases op with
  | alloc size passed => exact belt_alloc_WF b size passed h
  | flush sp => exact belt_flush_WF b sp h

theorem belt_run_WF (b : BladeBelt) (ops : List BeltOp) (h : b.WF) :
    (b.run ops).WF := by
  induction ops generalizing b with
  | nil => exact h
  | cons op ops ih => exact ih (b.step op) (belt_step_WF b op h)

theorem belt_alloc_no_reuse_step (b : BladeBelt) (hWF : b.WF) (size : Nat)
    (passed : Nat → Bool) (rb : ReusableBuffer) (sp : Nat)
    (hmem : (rb, sp) ∈ b.buffers) (hsp : passed sp = false) :
    (b.alloc size passed).1.buffer ≠ rb.raw ∧
    (rb, sp) ∈ (b.alloc size passed).2.buffers ∧
    ∃ rb2 cur, (rb2, cur) ∈ (b.alloc size passed).2.active ∧
      rb2.raw = (b.alloc size passed).1.buffer := by
  obtain ⟨hnd, hlt⟩ := hWF
  have hrbraw : rb.raw ∈ b.buffers.map (fun x => x.1.raw) :=
    List.mem_map.mpr ⟨(rb, sp), hmem, rfl⟩
  cases ha : allocActive size b.active with
  | some pr =>
    obtain ⟨p, act⟩ := pr
    rw [belt_alloc_case1 b size passed p act ha]
    obtain ⟨rb2, cur, hmem2, hraw2⟩ := allocActive_mem_buffer size b.active p act ha
    have hactraw : p.buffer ∈ b.active.map (fun x => x.1.raw) := by
      have h1 : p.buffer ∈ act.map (fun x => x.1.raw) :=
        List.mem_map.mpr ⟨(rb2, cur), hmem2, hraw2⟩
      rwa [map_raw_of_map_fst (allocActive_map_fst size b.active p act ha)] at h1
    refine ⟨?_, hmem, rb2, cur, hmem2, hraw2⟩
    intro hEq
    have hdisj := (List.nodup_append.mp (by simpa [BladeBelt.raws] using hnd)).2.2
    exact hdisj hrbraw (hEq ▸ hactraw)
  | none =>
    cases hf : findRetired size passed b.buffers with
    | some pr =>
      obtain ⟨rbF, rest⟩ := pr
      rw [belt_alloc_case2 b size passed rbF rest ha hf]
      obtain ⟨spF, hpF, hszF, hperm⟩ := findRetired_found size passed b.buffers rbF rest hf
      have hrest : (rb, sp) ∈ rest :=
        findRetired_rest_mem size passed b.buffers rbF rest hf (rb, sp) hmem hsp
      refine ⟨?_, hrest, rbF, size, List.mem_append_right _ (List.mem_singleton.mpr rfl), rfl⟩
      intro hEq
      have hmapperm : (b.buffers.map (fun x => x.1.raw)).Perm
          (rbF.raw :: rest.map (fun x => x.1.raw)) := by
        have h2 := hperm.map (fun x => x.1.raw)
        simpa using h2
      have hbufnd : (b.buffers.map (fun x => x.1.raw)).Nodup :=
        (List.nodup_append.mp (by simpa [BladeBelt.raws] using hnd)).1
      have hcons : (rbF.raw :: rest.map (fun x => x.1.raw)).Nodup :=
        hmapperm.nodup hbufnd
      have hnotin : rbF.raw ∉ rest.map (fun x => x.1.raw) :=
        (List.nodup_cons.mp hcons).1
      exact hnotin (List.mem_map.mpr ⟨(rb, sp), hrest, hEq.symm⟩)
    | none =>
      rw [belt_alloc_case3 b size passed ha hf]
      have hlt2 : rb.raw < b.next_raw := by
        apply hlt
        simp only [BladeBelt.raws, List.mem_append]
        exact Or.inl hrbraw
      refine ⟨by simp only []; omega, hmem, ⟨b.next_raw, max size b.desc.min_chunk_size⟩,
        size, List.mem_append_right _ (List.mem_singleton.mpr rfl), rfl⟩

/-- C4: in every sequence of BladeBelt::alloc and BladeBelt::flush calls
starting from BladeBelt::new, a buffer that flush moved to the retired set
is never returned by alloc while its fence is not observed as passed by the
non-blocking poll: the piece alloc hands out names a different buffer, the
unready retired buffer stays in the retired set untouched, and the buffer
actually handed out lives in the active set after the call (only flush ever
attaches a fence, and a retired buffer re-enters circulation only through
the promotion in alloc). -/
theorem belt_no_premature_reuse (desc : BladeBeltDescriptor) (ops : List BeltOp)
    (size : Nat) (passed : Nat → Bool) (rb : ReusableBuffer) (sp : Nat)
    (hmem : (rb, sp) ∈ ((BladeBelt.new desc).run ops).buffers)
    (hsp : passed sp = false) :
    (((BladeBelt.new desc).run ops).alloc size passed).1.buffer ≠ rb.raw ∧
    (rb, sp) ∈ (((BladeBelt.new desc).run ops).alloc size passed).2.buffers ∧
    ∃ rb2 cur,
      (rb2, cur) ∈ (((BladeBelt.new desc).run ops).alloc size passed).2.active ∧
      rb2.raw = (((BladeBelt.new desc).run ops).alloc size passed).1.buffer :=
  belt_alloc_no_reuse_step ((BladeBelt.new desc).run ops)
    (belt_run_WF (BladeBelt.new desc) ops (belt_new_WF desc)) size passed rb sp
    hmem hsp

/-- Witness for belt_no_premature_reuse: one alloc creates buffer 0, a flush
retires it with fence 7; with fence 7 unpassed, the next alloc creates and
returns fresh buffer 1, keeping buffer 0 retired. -/
theorem belt_no_premature_reuse_witness :
    ((⟨0, 16⟩, 7) ∈ ((BladeBelt.new ⟨16⟩).run
        [BeltOp.alloc 4 neverPassed, BeltOp.flush 7]).buffers ∧
     neverPassed 7 = false) ∧
    (((BladeBelt.new ⟨16⟩).run [BeltOp.alloc 4 neverPassed,
        BeltOp.flush 7]).alloc 4 neverPassed).1.buffer ≠ 0 ∧
    ((⟨0, 16⟩, 7) ∈ (((BladeBelt.new ⟨16⟩).run [BeltOp.alloc 4 neverPassed,
        BeltOp.flush 7]).alloc 4 neverPassed).2.buffers) := by
  have h := belt_no_premature_reuse ⟨16⟩ [BeltOp.alloc 4 neverPassed, BeltOp.flush 7]
    4 neverPassed ⟨0, 16⟩ 7 (by decide) (by decide)
  exact ⟨⟨by decide, by decide⟩, h.1, h.2.1⟩

/-- Rounding an offset up to the next multiple of the alignment, exactly as
alloc_data does it: offset += alignment - (offset % alignment) when the
remainder is non-zero. -/
def alignUp (o a : Nat) : Nat :=
  if o % a = 0 then o else o + (a - o % a)

theorem alloc_data_eq (b : BladeBelt) (align sizeT len : Nat)
    (passed : Nat → Bool) (hlen : len ≠ 0) (htot : len * sizeT ≠ 0) :
    b.alloc_data align sizeT len passed =
      some (⟨(b.alloc (align + (len * sizeT - 1)) passed).1.buffer,
             alignUp (b.alloc (align + (len * sizeT - 1)) passed).1.offset align⟩,
            (b.alloc (align + (len * sizeT - 1)) passed).2) := by
  unfold BladeBelt.alloc_data
  rw [if_neg hlen]
  simp only [htot, if_false, alignUp]

theorem alignUp_mod (o a : Nat) (ha : 1 ≤ a) : alignUp o a % a = 0 := by
  unfold alignUp
  by_cases h : o % a = 0
  · rw [if_pos h]; exact h
  · rw [if_neg h]
    have hlt : o % a < a := Nat.mod_lt o (by omega)
    have hdm := Nat.div_add_mod o a
    have heq2 : o + (a - o % a) = a * (o / a) + a := by omega
    rw [heq2, ← Nat.mul_succ]
    exact Nat.mul_mod_right a _

theorem alignUp_ge (o a : Nat) : o ≤ alignUp o a := by
  unfold alignUp
  by_cases h : o % a = 0
  · rw [if_pos h]
  · rw [if_neg h]; omega

theorem alignUp_le (o a : Nat) (ha : 1 ≤ a) : alignUp o a ≤ o + (a - 1) := by
  unfold alignUp
  by_cases h : o % a = 0
  · rw [if_pos h]; omega
  · rw [if_neg h]
    have hlt : o % a < a := Nat.mod_lt o (by omega)
    omega

/-- C6: for a non-empty slice of len elements of a (non-zero-sized) element
type, alloc_data requests align + total_bytes - 1 bytes from alloc, returns
a piece in the same buffer whose offset is the inner offset rounded up to a
multiple of the alignment, and the aligned range of total_bytes bytes lies
entirely within the underlying allocation handed out by alloc; empty data
is rejected (the assert, modelled as none). -/
theorem alloc_data_aligned (b : BladeBelt) (align sizeT len : Nat)
    (passed : Nat → Bool) (ha : 1 ≤ align) (hs : 1 ≤ sizeT) (hl : 1 ≤ len) :
    b.alloc_data align sizeT 0 passed = none ∧
    ∃ bp, b.alloc_data align sizeT len passed =
        some (bp, (b.alloc (align + (len * sizeT - 1)) passed).2) ∧
      bp.buffer = (b.alloc (align + (len * sizeT - 1)) passed).1.buffer ∧
      bp.offset % align = 0 ∧
      (b.alloc (align + (len * sizeT - 1)) passed).1.offset ≤ bp.offset ∧
      bp.offset + len * sizeT ≤
        (b.alloc (align + (len * sizeT - 1)) passed).1.offset +
          (align + (len * sizeT - 1)) := by
  constructor
  · simp [BladeBelt.alloc_data]
  · have htot : len * sizeT ≠ 0 := by positivity
    refine ⟨⟨(b.alloc (align + (len * sizeT - 1)) passed).1.buffer,
      alignUp (b.alloc (align + (len * sizeT - 1)) passed).1.offset align⟩,
      alloc_data_eq b align sizeT len passed (by omega) htot, rfl,
      alignUp_mod _ align ha, alignUp_ge _ align, ?_⟩
    have h1 := alignUp_le (b.alloc (align + (len * sizeT - 1)) passed).1.offset align ha
    have h2 : 1 ≤ len * sizeT := Nat.one_le_iff_ne_zero.mpr htot
    dsimp only
    omega

/-- Witness for alloc_data_aligned at align 4, element size 4, 3 elements,
on a belt whose active buffer has its cursor at the unaligned offset 5: the
inner alloc returns offset 5 and 15 bytes, the piece comes back at the
aligned offset 8, and 8 + 12 = 20 = 5 + 15 uses the allocation exactly. -/
theorem alloc_data_aligned_witness :
    (BladeBelt.mk ⟨16⟩ [] [(⟨0, 64⟩, 5)] 1).alloc_data 4 4 0 alwaysPassed = none ∧
    (BladeBelt.mk ⟨16⟩ [] [(⟨0, 64⟩, 5)] 1).alloc_data 4 4 3 alwaysPassed =
      some (⟨0, 8⟩, BladeBelt.mk ⟨16⟩ [] [(⟨0, 64⟩, 20)] 1) ∧
    (8 : Nat) % 4 = 0 ∧ (5 : Nat) ≤ 8 ∧ (8 : Nat) + 12 ≤ 5 + 15 := by
  have h := alloc_data_aligned (BladeBelt.mk ⟨16⟩ [] [(⟨0, 64⟩, 5)] 1) 4 4 3
    alwaysPassed (by decide) (by decide) (by decide)
  obtain ⟨h0, bp, heq, hbuf, hmod, hge, hle⟩ := h
  have hcomp : (BladeBelt.mk ⟨16⟩ [] [(⟨0, 64⟩, 5)] 1).alloc_data 4 4 3 alwaysPassed =
      some (⟨0, 8⟩, BladeBelt.mk ⟨16⟩ [] [(⟨0, 64⟩, 20)] 1) := by decide
  have h2 := heq.symm.trans hcomp
  simp only [Option.some.injEq, Prod.mk.injEq] at h2
  obtain ⟨hbp, -⟩ := h2
  subst hbp
  exact ⟨h0, hcomp, hmod, hge, hle⟩

/-- crate::AtlasTextureKind. -/
inductive AtlasTextureKind where
  | monochrome
  | polychrome
  | path
deriving DecidableEq

/-- crate::Size<DevicePixels>: width and height in device pixels (i32 in
the source, non-negative in every use here). -/
structure Size where
  width : Nat
  height : Nat
deriving DecidableEq

/-- Modelled from the spec: Size::max from the gpui geometry module, whose
source file is outside this excerpt. The spec's "New texture sizing:
max(requested size, a fixed default such as 1024x1024)" together with "a
texture sized to at least that tile" makes it the componentwise maximum. -/
def Size.maxSize (a b : Size) : Size :=
  ⟨max a.width b.width, max a.height b.height⟩

/-- crate::Point<DevicePixels>. -/
structure Point where
  x : Nat
  y : Nat
deriving DecidableEq

/-- crate::Bounds<DevicePixels>: origin plus size. -/
structure Bounds where
  origin : Point
  size : Size
deriving DecidableEq

/-- crate::AtlasTextureId: pool index plus kind. -/
structure AtlasTextureId where
  index : Nat
  kind : AtlasTextureKind
deriving DecidableEq

/-- crate::AtlasTile. -/
structure AtlasTile where
  texture_id : AtlasTextureId
  tile_id : Nat
  padding : Nat
  bounds : Bounds
deriving DecidableEq

/-- crate::AtlasKey, abstracted: an opaque hashable identity plus the
texture kind it maps to; only equality and texture_kind are observable to
this subsystem. -/
structure AtlasKey where
  ident : Nat
  kind : AtlasTextureKind
deriving DecidableEq

/-- AtlasKey::texture_kind. -/
def AtlasKey.texture_kind (k : AtlasKey) : AtlasTextureKind := k.kind

/-- Modelled from the spec: one shelf of the bucketed shelf packer (a
horizontal band at height y with a write cursor x). -/
structure Shelf where
  y : Nat
  height : Nat
  x : Nat
deriving DecidableEq

/-- Modelled from the spec: etagere::BucketedAtlasAllocator, an external
crate whose code is not part of this repository. The spec describes it as
"a bucketed atlas allocator (guillotine/shelf-style free-rectangle packing)
per physical texture; allocate returns None when no free rectangle fits".
The model is a shelf packer over a width x height area: shelves are stacked
from y = 0 upward (shelfTop is where the next shelf would start), a
rectangle is placed at the cursor of the first shelf tall enough that has
horizontal room, otherwise a fresh shelf is opened at shelfTop, and
otherwise allocation fails; clear drops every shelf. -/
structure BucketedAtlasAllocator where
  width : Nat
  height : Nat
  shelves : List Shelf
  shelfTop : Nat
  next_alloc_id : Nat
deriving DecidableEq

/-- BucketedAtlasAllocator::new. -/
def BucketedAtlasAllocator.new (size : Size) : BucketedAtlasAllocator :=
  ⟨size.width, size.height, [], 0, 0⟩

/-- allocator.size(). -/
def BucketedAtlasAllocator.size (a : BucketedAtlasAllocator) : Size :=
  ⟨a.width, a.height⟩

/-- etagere::Allocation: the allocation id and the rectangle's min corner. -/
structure Allocation where
  id : Nat
  minX : Nat
  minY : Nat
deriving DecidableEq

/-- Place a w x h rectangle on the first shelf that is tall enough and has
room before the right edge; bump that shelf's cursor. -/
def shelfPlace (w h width : Nat) :
    List Shelf → Option (Nat × Nat × List Shelf)
  | [] => none
  | s :: rest =>
    if h ≤ s.height ∧ s.x + w ≤ width then
      some (s.x, s.y, { s with x := s.x + w } :: rest)
    else
      match shelfPlace w h width rest with
      | some (x, y, rest2) => some (x, y, s :: rest2)
      | none => none

/-- BucketedAtlasAllocator::allocate (modelled from the spec). -/
def BucketedAtlasAllocator.allocate (a : BucketedAtlasAllocator)
    (size : Size) : Option (Allocation × BucketedAtlasAllocator) :=
  match shelfPlace size.width size.height a.width a.shelves with
  | some (x, y, shelves2) =>
    some (⟨a.next_alloc_id, x, y⟩,
          { a with shelves := shelves2, next_alloc_id := a.next_alloc_id + 1 })
  | none =>
    if size.width ≤ a.width ∧ a.shelfTop + size.height ≤ a.height then
      some (⟨a.next_alloc_id, 0, a.shelfTop⟩,
            { a with shelves := a.shelves ++ [⟨a.shelfTop, size.height, size.width⟩],
                     shelfTop := a.shelfTop + size.height,
                     next_alloc_id := a.next_alloc_id + 1 })
    else none

/-- BucketedAtlasAllocator::clear: back to fully free, same dimensions. -/
def BucketedAtlasAllocator.clear (a : BucketedAtlasAllocator) :
    BucketedAtlasAllocator :=
  { a with shelves := [], shelfTop := 0, next_alloc_id := 0 }

/-- gpu::TextureFormat, restricted to the three formats the atlas uses. -/
inductive TextureFormat where
  | r8Unorm
  | bgra8Unorm
  | r16Float
deriving DecidableEq

/-- struct BladeAtlasTexture. -/
structure BladeAtlasTexture where
  id : AtlasTextureId
  allocator : BucketedAtlasAllocator
  raw : Nat
  raw_view : Option Nat
  format : TextureFormat
deriving DecidableEq

/-- BladeAtlasTexture::clear. -/
def BladeAtlasTexture.clear (t : BladeAtlasTexture) : BladeAtlasTexture :=
  { t with allocator := t.allocator.clear }

/-- BladeAtlasTexture::allocate: ask the packer for a rectangle; on success
the tile carries this texture's id, the allocation id as tile_id, padding 0
and bounds made of the rectangle's min corner and the requested size. -/
def BladeAtlasTexture.allocate (t : BladeAtlasTexture) (size : Size) :
    Option (AtlasTile × BladeAtlasTexture) :=
  match t.allocator.allocate size with
  | some (allocation, a2) =>
    some ({ texture_id := t.id, tile_id := allocation.id, padding := 0,
            bounds := ⟨⟨allocation.minX, allocation.minY⟩, size⟩ },
          { t with allocator := a2 })
  | none => none

/-- struct PendingUpload. -/
structure PendingUpload where
  id : AtlasTextureId
  bounds : Bounds
  data : BufferPiece
deriving DecidableEq

/-- anyhow::Error surfaced by a builder, modelled as an opaque code. -/
structure BuildError where
  code : Nat
deriving DecidableEq

instance {e a : Type} [DecidableEq e] [DecidableEq a] : DecidableEq (Except e a) := fun x y =>
  match x, y with
  | Except.error u, Except.error v =>
    if h : u = v then Decidable.isTrue (by rw [h])
    else Decidable.isFalse (by intro hx; cases hx; exact h rfl)
  | Except.ok u, Except.ok v =>
    if h : u = v then Decidable.isTrue (by rw [h])
    else Decidable.isFalse (by intro hx; cases hx; exact h rfl)
  | Except.error u, Except.ok v => Decidable.isFalse (by intro hx; cases hx)
  | Except.ok u, Except.error v => Decidable.isFalse (by intro hx; cases hx)

/-- struct BladeAtlasState (the gpu context is represented by the
next_gpu_handle counter producing fresh texture/view handles). -/
structure BladeAtlasState where
  upload_belt : BladeBelt
  monochrome_textures : List BladeAtlasTexture
  polychrome_textures : List BladeAtlasTexture
  path_textures : List BladeAtlasTexture
  tiles_by_key : List (AtlasKey × AtlasTile)
  uploads : List PendingUpload
  next_gpu_handle : Nat
deriving DecidableEq

/-- BladeAtlas::new: empty pools, empty key cache, a fresh upload belt with
min_chunk_size 0x10000. -/
def BladeAtlasState.new : BladeAtlasState :=
  { upload_belt := BladeBelt.new ⟨0x10000⟩,
    monochrome_textures := [], polychrome_textures := [], path_textures := [],
    tiles_by_key := [], uploads := [], next_gpu_handle := 0 }

/-- The pool of textures for a kind (the three-way match repeated through
blade_atlas.rs). -/
def BladeAtlasState.texturesOf (s : BladeAtlasState) :
    AtlasTextureKind → List BladeAtlasTexture
  | AtlasTextureKind.monochrome => s.monochrome_textures
  | AtlasTextureKind.polychrome => s.polychrome_textures
  | AtlasTextureKind.path => s.path_textures

/-- Replace the pool of textures for a kind. -/
def BladeAtlasState.setTextures (s : BladeAtlasState)
    (kind : AtlasTextureKind) (ts : List BladeAtlasTexture) : BladeAtlasState :=
  match kind with
  | AtlasTextureKind.monochrome => { s with monochrome_textures := ts }
  | AtlasTextureKind.polychrome => { s with polychrome_textures := ts }
  | AtlasTextureKind.path => { s with path_textures := ts }

/-- const DEFAULT_ATLAS_SIZE. -/
def DEFAULT_ATLAS_SIZE : Size := ⟨1024, 1024⟩

/-- Pixel format per texture kind, as fixed in push_texture. -/
def kindFormat : AtlasTextureKind → TextureFormat
  | AtlasTextureKind.monochrome => TextureFormat.r8Unorm
  | AtlasTextureKind.polychrome => TextureFormat.bgra8Unorm
  | AtlasTextureKind.path => TextureFormat.r16Float

/-- Whether push_texture adds TextureUsage::TARGET (and hence creates a
render-target view): only for the path kind. -/
def kindHasTargetUsage : AtlasTextureKind → Bool
  | AtlasTextureKind.monochrome => false
  | AtlasTextureKind.polychrome => false
  | AtlasTextureKind.path => true

/-- BladeAtlasState::push_texture: the texture is sized to the componentwise
max of min_size and the 1024x1024 default, created fresh on the GPU (plus a
view when the kind is a render target), given index = current pool length,
and appended to the pool. Returns the new texture together with the updated
state. -/
def BladeAtlasState.push_texture (s : BladeAtlasState) (min_size : Size)
    (kind : AtlasTextureKind) : BladeAtlasTexture × BladeAtlasState :=
  let size := min_size.maxSize DEFAULT_ATLAS_SIZE
  let rv : Option Nat × Nat :=
    if kindHasTargetUsage kind then (some (s.next_gpu_handle + 1), s.next_gpu_handle + 2)
    else (none, s.next_gpu_handle + 1)
  let t : BladeAtlasTexture :=
    { id := ⟨(s.texturesOf kind).length, kind⟩,
      allocator := BucketedAtlasAllocator.new size,
      raw := s.next_gpu_handle, raw_view := rv.1, format := kindFormat kind }
  (t, { s.setTextures kind (s.texturesOf kind ++ [t]) with next_gpu_handle := rv.2 })

/-- textures.iter_mut().rev().find_map(|texture| texture.allocate(size)):
try the newest texture (the end of the pool) first, then fall back through
older ones. -/
def allocFromNewest (size : Size) :
    List BladeAtlasTexture → Option (AtlasTile × List BladeAtlasTexture)
  | [] => none
  | t :: rest =>
    match allocFromNewest size rest with
    | some (tile, rest2) => some (tile, t :: rest2)
    | none =>
      match t.allocate size with
      | some (tile, t2) => some (tile, t2 :: rest)
      | none => none

/-- BladeAtlasState::allocate: pack into the existing textures of the kind
newest-first, or push a fresh texture and allocate from it. The source
unwraps the second allocation; failure there is modelled as none. -/
def BladeAtlasState.allocate (s : BladeAtlasState) (size : Size)
    (kind : AtlasTextureKind) : Option (AtlasTile × BladeAtlasState) :=
  match allocFromNewest size (s.texturesOf kind) with
  | some (tile, ts2) => some (tile, s.setTextures kind ts2)
  | none =>
    let r := s.push_texture size kind
    match r.1.allocate size with
    | some (tile, t2) =>
      some (tile, r.2.setTextures kind (s.texturesOf kind ++ [t2]))
    | none => none

/-- BladeAtlasState::upload_texture: stage the bytes through the upload belt
(alloc_data at u8 layout: alignment 1, element size 1) and queue a pending
upload; none models the belt's assert on empty data. -/
def BladeAtlasState.upload_texture (s : BladeAtlasState) (id : AtlasTextureId)
    (bounds : Bounds) (bytesLen : Nat) (passed : Nat → Bool) :
    Option BladeAtlasState :=
  match s.upload_belt.alloc_data 1 1 bytesLen passed with
  | some (bp, belt2) =>
    some { s with upload_belt := belt2,
                  uploads := s.uploads ++ [⟨id, bounds, bp⟩] }
  | none => none

/-- FxHashMap::get on tiles_by_key, modelled over an association list. -/
def lookupKey : List (AtlasKey × AtlasTile) → AtlasKey → Option AtlasTile
  | [], _ => none
  | (k, t) :: rest, key => if k = key then some t else lookupKey rest key

/-- FxHashMap::insert on tiles_by_key. -/
def insertKey : List (AtlasKey × AtlasTile) → AtlasKey → AtlasTile →
    List (AtlasKey × AtlasTile)
  | [], key, tile => [(key, tile)]
  | (k, t) :: rest, key, tile =>
    if k = key then (key, tile) :: rest else (k, t) :: insertKey rest key tile

/-- PlatformAtlas::get_or_insert_with for BladeAtlas. The builder closure is
modelled by the result it would produce when invoked; the Nat in the result
counts how many times the builder was invoked during the call. The outer
none models a panic on the miss path (the allocate unwrap or the belt's
empty-data assert). -/
def BladeAtlas.get_or_insert_with (s : BladeAtlasState) (key : AtlasKey)
    (build : Except BuildError (Size × List Nat)) (passed : Nat → Bool) :
    Option (Except BuildError AtlasTile × BladeAtlasState × Nat) :=
  match lookupKey s.tiles_by_key key with
  | some tile => some (Except.ok tile, s, 0)
  | none =>
    match build with
    | Except.error e => some (Except.error e, s, 1)
    | Except.ok (size, bytes) =>
      match s.allocate size key.texture_kind with
      | none => none
      | some (tile, s2) =>
        match s2.upload_texture tile.texture_id tile.bounds bytes.length passed with
        | none => none
        | some s3 =>
          some (Except.ok tile,
                { s3 with tiles_by_key := insertKey s3.tiles_by_key key tile }, 1)

/-- BladeAtlas::clear_textures: clear the allocator of every texture of the
kind, touching nothing else. -/
def BladeAtlas.clear_textures (s : BladeAtlasState) (kind : AtlasTextureKind) :
    BladeAtlasState :=
  s.setTextures kind ((s.texturesOf kind).map BladeAtlasTexture.clear)

theorem setTextures_tiles_by_key (s : BladeAtlasState) (kind : AtlasTextureKind)
    (ts : List BladeAtlasTexture) :
    (s.setTextures kind ts).tiles_by_key = s.tiles_by_key := by
  cases kind <;> rfl

theorem lookupKey_insertKey (m : List (AtlasKey × AtlasTile)) (key : AtlasKey)
    (tile : AtlasTile) :
    lookupKey (insertKey m key tile) key = some tile := by
  induction m with
  | nil => simp [insertKey, lookupKey]
  | cons e rest ih =>
    obtain ⟨k, t⟩ := e
    by_cases h : k = key
    · simp [insertKey, h, lookupKey]
    · simp [insertKey, h, lookupKey, ih]

/-- C1: get_or_insert_with is memoizing. If a call for key k succeeds with
tile t1 and state s1, then any further call for k on s1 is a cache hit: it
returns the very same tile (hence identical bounds), leaves the state
untouched (no allocation, no upload enqueued), and invokes its builder zero
times; and the first call invoked its builder at most once. -/
theorem get_or_insert_memoized (s : BladeAtlasState) (key : AtlasKey)
    (b1 b2 : Except BuildError (Size × List Nat)) (p1 p2 : Nat → Bool)
    (t1 : AtlasTile) (s1 : BladeAtlasState) (n1 : Nat)
    (h : BladeAtlas.get_or_insert_with s key b1 p1 = some (Except.ok t1, s1, n1)) :
    n1 ≤ 1 ∧
    BladeAtlas.get_or_insert_with s1 key b2 p2 = some (Except.ok t1, s1, 0) := by
  unfold BladeAtlas.get_or_insert_with at h
  cases hl : lookupKey s.tiles_by_key key with
  | some tile =>
    rw [hl] at h
    simp only [Option.some.injEq, Prod.mk.injEq, Except.ok.injEq] at h
    obtain ⟨rfl, rfl, rfl⟩ := h
    refine ⟨by omega, ?_⟩
    simp [BladeAtlas.get_or_insert_with, hl]
  | none =>
    rw [hl] at h
    cases b1 with
    | error e => simp at h
    | ok pr =>
      obtain ⟨size, bytes⟩ := pr
      dsimp only at h
      cases hA : s.allocate size key.texture_kind with
      | none => rw [hA] at h; cases h
      | some pr2 =>
        obtain ⟨tile, s2⟩ := pr2
        rw [hA] at h
        dsimp only at h
        cases hU : s2.upload_texture tile.texture_id tile.bounds bytes.length p1 with
        | none => rw [hU] at h; cases h
        | some s3 =>
          rw [hU] at h
          dsimp only at h
          simp only [Option.some.injEq, Prod.mk.injEq, Except.ok.injEq] at h
          obtain ⟨rfl, hs, rfl⟩ := h
          subst hs
          refine ⟨by omega, ?_⟩
          have hlk : lookupKey (insertKey s3.tiles_by_key key tile) key = some tile :=
            lookupKey_insertKey _ _ _
          simp [BladeAtlas.get_or_insert_with, hlk]

/-- The tile, state and upload queue produced by the first demonstration
call of get_or_insert_with on a fresh atlas. -/
def demoKey : AtlasKey := ⟨0, AtlasTextureKind.monochrome⟩

/-- Builder result used in demonstration calls: a 16x16 tile with one byte
of data. -/
def demoBuild : Except BuildError (Size × List Nat) := Except.ok (⟨16, 16⟩, [7])

/-- The tile returned by the first demonstration call. -/
def demoTile : AtlasTile :=
  ⟨⟨0, AtlasTextureKind.monochrome⟩, 0, 0, ⟨⟨0, 0⟩, ⟨16, 16⟩⟩⟩

/-- The atlas state after the first demonstration call. -/
def demoState1 : BladeAtlasState :=
  ⟨⟨⟨65536⟩, [], [(⟨0, 65536⟩, 1)], 1⟩,
   [⟨⟨0, AtlasTextureKind.monochrome⟩, ⟨1024, 1024, [⟨0, 16, 16⟩], 16, 1⟩, 0,
     none, TextureFormat.r8Unorm⟩],
   [], [],
   [(demoKey, demoTile)],
   [⟨⟨0, AtlasTextureKind.monochrome⟩, ⟨⟨0, 0⟩, ⟨16, 16⟩⟩, ⟨0, 0⟩⟩],
   1⟩

/-- Witness for get_or_insert_memoized: a fresh atlas, one miss that builds
a 16x16 monochrome tile, then the repeated call is a hit returning the same
tile with untouched state and zero builder invocations. -/
theorem get_or_insert_memoized_witness :
    (1 : Nat) ≤ 1 ∧
    BladeAtlas.get_or_insert_with demoState1 demoKey demoBuild neverPassed =
      some (Except.ok demoTile, demoState1, 0) :=
  get_or_insert_memoized BladeAtlasState.new demoKey demoBuild demoBuild
    neverPassed neverPassed demoTile demoState1 1 (by decide)

/-- C5: when the key is not cached and the builder fails, the error is
returned to the caller and the state is returned exactly as it was: no tile
allocated, no upload enqueued, no key inserted, and the builder was invoked
just that once. -/
theorem builder_error_no_mutation (s : BladeAtlasState) (key : AtlasKey)
    (e : BuildError) (passed : Nat → Bool)
    (h : lookupKey s.tiles_by_key key = none) :
    BladeAtlas.get_or_insert_with s key (Except.error e) passed =
      some (Except.error e, s, 1) := by
  simp [BladeAtlas.get_or_insert_with, h]

/-- Witness for builder_error_no_mutation on a fresh atlas. -/
theorem builder_error_no_mutation_witness :
    BladeAtlas.get_or_insert_with BladeAtlasState.new demoKey
      (Except.error ⟨3⟩) neverPassed =
      some (Except.error ⟨3⟩, BladeAtlasState.new, 1) :=
  builder_error_no_mutation BladeAtlasState.new demoKey ⟨3⟩ neverPassed (by decide)

/-- C10: clear_textures leaves tiles_by_key unchanged, and every key cached
before the clear is still a cache hit afterwards: get_or_insert_with
returns the original tile without invoking the builder and without touching
the state. -/
theorem clear_textures_preserves_key_cache (s : BladeAtlasState)
    (kind : AtlasTextureKind) :
    (BladeAtlas.clear_textures s kind).tiles_by_key = s.tiles_by_key ∧
    ∀ (key : AtlasKey) (t : AtlasTile) (b : Except BuildError (Size × List Nat))
      (passed : Nat → Bool),
      lookupKey s.tiles_by_key key = some t →
      BladeAtlas.get_or_insert_with (BladeAtlas.clear_textures s kind) key b passed =
        some (Except.ok t, BladeAtlas.clear_textures s kind, 0) := by
  have hkeys : (BladeAtlas.clear_textures s kind).tiles_by_key = s.tiles_by_key :=
    setTextures_tiles_by_key _ _ _
  refine ⟨hkeys, ?_⟩
  intro key t b passed hl
  have hl2 : lookupKey (BladeAtlas.clear_textures s kind).tiles_by_key key = some t := by
    rw [hkeys]; exact hl
  simp [BladeAtlas.get_or_insert_with, hl2]

/-- Witness for clear_textures_preserves_key_cache: after clearing the
monochrome pool of the demonstration state, the cached key is still a hit
returning the original tile. -/
theorem clear_textures_preserves_key_cache_witness :
    (BladeAtlas.clear_textures demoState1 AtlasTextureKind.monochrome).tiles_by_key =
      demoState1.tiles_by_key ∧
    BladeAtlas.get_or_insert_with
        (BladeAtlas.clear_textures demoState1 AtlasTextureKind.monochrome)
        demoKey demoBuild neverPassed =
      some (Except.ok demoTile,
            BladeAtlas.clear_textures demoState1 AtlasTextureKind.monochrome, 0) := by
  have h := clear_textures_preserves_key_cache demoState1 AtlasTextureKind.monochrome
  exact ⟨h.1, h.2 demoKey demoTile demoBuild neverPassed (by decide)⟩

/-- Index (in pool order, oldest first) of the texture that the
newest-first scan of BladeAtlasState::allocate would use: the largest index
whose allocate succeeds. -/
def firstFitRevIdx (size : Size) : List BladeAtlasTexture → Option Nat
  | [] => none
  | t :: rest =>
    match firstFitRevIdx size rest with
    | some j => some (j + 1)
    | none => if (t.allocate size).isSome then some 0 else none

theorem firstFitRevIdx_lt (size : Size) (l : List BladeAtlasTexture) :
    ∀ i, firstFitRevIdx size l = some i → i < l.length := by
  induction l with
  | nil => intro i h; simp [firstFitRevIdx] at h
  | cons t rest ih =>
    intro i h
    simp only [firstFitRevIdx] at h
    cases hfr : firstFitRevIdx size rest with
    | some j =>
      rw [hfr] at h
      simp only [Option.some.injEq] at h
      have := ih j hfr
      simp only [List.length_cons]
      omega
    | none =>
      rw [hfr] at h
      by_cases hs : (t.allocate size).isSome
      · rw [if_pos hs] at h
        simp only [Option.some.injEq] at h
        simp only [List.length_cons]
        omega
      · rw [if_neg hs] at h; cases h

theorem firstFitRevIdx_none_iff (size : Size) (l : List BladeAtlasTexture) :
    firstFitRevIdx size l = none ↔ ∀ t ∈ l, t.allocate size = none := by
  induction l with
  | nil => simp [firstFitRevIdx]
  | cons t rest ih =>
    simp only [firstFitRevIdx]
    cases hfr : firstFitRevIdx size rest with
    | some j =>
      constructor
      · intro h; cases h
      · intro h
        have : firstFitRevIdx size rest = none := by
          rw [ih]
          intro t2 ht2
          exact h t2 (List.mem_cons_of_mem _ ht2)
        rw [this] at hfr
        cases hfr
    | none =>
      by_cases hs : (t.allocate size).isSome
      · rw [if_pos hs]
        constructor
        · intro h; cases h
        · intro h
          have := h t (List.mem_cons_self _ _)
          rw [this] at hs
          cases hs
      · rw [if_neg hs]
        constructor
        · intro _ t2 ht2
          rcases List.mem_cons.mp ht2 with rfl | ht3
          · exact Option.not_isSome_iff_eq_none.mp hs
          · exact (ih.mp hfr) t2 ht3
        · intro _; trivial

theorem allocFromNewest_eq_none (size : Size) (l : List BladeAtlasTexture) :
    firstFitRevIdx size l = none → allocFromNewest size l = none := by
  induction l with
  | nil => intro _; simp [allocFromNewest]
  | cons t rest ih =>
    intro h
    simp only [firstFitRevIdx] at h
    cases hfr : firstFitRevIdx size rest with
    | some j => rw [hfr] at h; cases h
    | none =>
      rw [hfr] at h
      by_cases hs : (t.allocate size).isSome
      · rw [if_pos hs] at h; cases h
      · have hnone : t.allocate size = none := Option.not_isSome_iff_eq_none.mp hs
        simp only [allocFromNewest, ih hfr, hnone]

theorem allocFromNewest_eq_of_fit (size : Size) (l : List BladeAtlasTexture) :
    ∀ i (hi : i < l.length), firstFitRevIdx size l = some i →
      ∃ tile t2, (l.get ⟨i, hi⟩).allocate size = some (tile, t2) ∧
        allocFromNewest size l = some (tile, l.set i t2) := by
  induction l with
  | nil => intro i hi; simp at hi
  | cons t rest ih =>
    intro i hi h
    simp only [firstFitRevIdx] at h
    cases hfr : firstFitRevIdx size rest with
    | some j =>
      rw [hfr] at h
      simp only [Option.some.injEq] at h
      subst h
      have hj : j < rest.length := firstFitRevIdx_lt size rest j hfr
      obtain ⟨tile, t2, hget, halloc⟩ := ih j hj hfr
      refine ⟨tile, t2, hget, ?_⟩
      simp only [allocFromNewest, halloc]
      rfl
    | none =>
      rw [hfr] at h
      by_cases hs : (t.allocate size).isSome
      · rw [if_pos hs] at h
        simp only [Option.some.injEq] at h
        subst h
        obtain ⟨pr, hpr⟩ := Option.isSome_iff_exists.mp hs
        obtain ⟨tile, t2⟩ := pr
        refine ⟨tile, t2, hpr, ?_⟩
        have hnone := allocFromNewest_eq_none size rest hfr
        simp only [allocFromNewest, hnone, hpr]
        rfl
      · rw [if_neg hs] at h; cases h

theorem firstFitRevIdx_newest (size : Size) (l : List BladeAtlasTexture) :
    ∀ i, firstFitRevIdx size l = some i →
      ∀ j (hj : j < l.length), i < j → (l.get ⟨j, hj⟩).allocate size = none := by
  induction l with
  | nil => intro i h; simp [firstFitRevIdx] at h
  | cons t rest ih =>
    intro i h j hj hij
    simp only [firstFitRevIdx] at h
    cases hfr : firstFitRevIdx size rest with
    | some j0 =>
      rw [hfr] at h
      simp only [Option.some.injEq] at h
      subst h
      cases j with
      | zero => omega
      | succ j2 =>
        have hj2 : j2 < rest.length := by
          simp only [List.length_cons] at hj; omega
        exact ih j0 hfr j2 hj2 (by omega)
    | none =>
      rw [hfr] at h
      by_cases hs : (t.allocate size).isSome
      · rw [if_pos hs] at h
        simp only [Option.some.injEq] at h
        subst h
        cases j with
        | zero => omega
        | succ j2 =>
          have hj2 : j2 < rest.length := by
            simp only [List.length_cons] at hj; omega
          have hall := (firstFitRevIdx_none_iff size rest).mp hfr
          exact hall _ (rest.get_mem _ _)
      · rw [if_neg hs] at h; cases h

theorem fresh_allocator_allocate (size : Size) :
    (BucketedAtlasAllocator.new (size.maxSize DEFAULT_ATLAS_SIZE)).allocate size =
      some (⟨0, 0, 0⟩,
            { BucketedAtlasAllocator.new (size.maxSize DEFAULT_ATLAS_SIZE) with
                shelves := [⟨0, size.height, size.width⟩],
                shelfTop := size.height,
                next_alloc_id := 1 }) := by
  unfold BucketedAtlasAllocator.allocate BucketedAtlasAllocator.new
  simp only [shelfPlace]
  rw [if_pos]
  · simp
  · constructor
    · exact Nat.le_max_left _ _
    · show 0 + size.height ≤ max size.height 1024
      have := Nat.le_max_left size.height 1024
      omega

theorem push_texture_allocate (s : BladeAtlasState) (size : Size)
    (kind : AtlasTextureKind) :
    ∃ tile t2, (s.push_texture size kind).1.allocate size = some (tile, t2) ∧
      tile.texture_id = ⟨(s.texturesOf kind).length, kind⟩ ∧
      tile.bounds = ⟨⟨0, 0⟩, size⟩ := by
  unfold BladeAtlasState.push_texture BladeAtlasTexture.allocate
  dsimp only
  rw [fresh_allocator_allocate]
  exact ⟨_, _, rfl, rfl, rfl⟩

/-- C9: the unwrap inside BladeAtlasState::allocate is unreachable. In the
model the whole operation is total: for every state, size and kind it
returns a tile; in particular when every existing texture rejects the
request, the allocation into the freshly pushed texture of dimensions
max(size, 1024x1024) always succeeds (the fresh allocator places the
requested rectangle at the origin). -/
theorem atlas_allocate_total (s : BladeAtlasState) (size : Size)
    (kind : AtlasTextureKind) :
    ∃ tile s2, s.allocate size kind = some (tile, s2) := by
  unfold BladeAtlasState.allocate
  cases hA : allocFromNewest size (s.texturesOf kind) with
  | some pr =>
    obtain ⟨tile, ts2⟩ := pr
    exact ⟨tile, s.setTextures kind ts2, rfl⟩
  | none =>
    obtain ⟨tile, t2, halloc, -, -⟩ := push_texture_allocate s size kind
    dsimp only
    rw [halloc]
    exact ⟨tile, _, rfl⟩

/-- C7: BladeAtlasState::allocate tries the textures of the kind
newest-first and takes the first success: when the scan finds index i,
every newer texture rejected the request and the state update touches only
texture i; a new texture is created exactly when every existing texture of
the kind rejects the request, and it is sized to the componentwise
max(size, 1024x1024), so its dimensions are at least the requested size. -/
theorem atlas_allocate_newest_first (s : BladeAtlasState) (size : Size)
    (kind : AtlasTextureKind) :
    (∀ i (hi : i < (s.texturesOf kind).length),
      firstFitRevIdx size (s.texturesOf kind) = some i →
        (∀ j (hj : j < (s.texturesOf kind).length), i < j →
          ((s.texturesOf kind).get ⟨j, hj⟩).allocate size = none) ∧
        ∃ tile t2,
          ((s.texturesOf kind).get ⟨i, hi⟩).allocate size = some (tile, t2) ∧
          s.allocate size kind =
            some (tile, s.setTextures kind ((s.texturesOf kind).set i t2))) ∧
    (firstFitRevIdx size (s.texturesOf kind) = none ↔
      ∀ t ∈ s.texturesOf kind, t.allocate size = none) ∧
    (firstFitRevIdx size (s.texturesOf kind) = none →
      ∃ tile t2,
        s.allocate size kind =
          some (tile, (s.push_texture size kind).2.setTextures kind
            ((s.texturesOf kind) ++ [t2])) ∧
        (s.push_texture size kind).1.allocate size = some (tile, t2) ∧
        (s.push_texture size kind).1.allocator.size = size.maxSize DEFAULT_ATLAS_SIZE ∧
        size.width ≤ (s.push_texture size kind).1.allocator.width ∧
        size.height ≤ (s.push_texture size kind).1.allocator.height ∧
        (s.push_texture size kind).1.id = ⟨(s.texturesOf kind).length, kind⟩) := by
  refine ⟨?_, firstFitRevIdx_none_iff size _, ?_⟩
  · intro i hi hfit
    refine ⟨firstFitRevIdx_newest size _ i hfit, ?_⟩
    obtain ⟨tile, t2, hget, halloc⟩ := allocFromNewest_eq_of_fit size _ i hi hfit
    refine ⟨tile, t2, hget, ?_⟩
    unfold BladeAtlasState.allocate
    rw [halloc]
  · intro hnone
    have hA := allocFromNewest_eq_none size _ hnone
    obtain ⟨tile, t2, halloc, hid, hb⟩ := push_texture_allocate s size kind
    refine ⟨tile, t2, ?_, halloc, rfl, ?_, ?_, rfl⟩
    · unfold BladeAtlasState.allocate
      rw [hA]
      dsimp only
      rw [halloc]
    · exact Nat.le_max_left _ _
    · exact Nat.le_max_left _ _

/-- The tile produced by allocating a second 16x16 rectangle in the
demonstration state. -/
def demoTile2 : AtlasTile :=
  ⟨⟨0, AtlasTextureKind.monochrome⟩, 1, 0, ⟨⟨16, 0⟩, ⟨16, 16⟩⟩⟩

/-- demoState1 after that second allocation (same texture, cursor moved). -/
def demoState2 : BladeAtlasState :=
  ⟨⟨⟨65536⟩, [], [(⟨0, 65536⟩, 1)], 1⟩,
   [⟨⟨0, AtlasTextureKind.monochrome⟩, ⟨1024, 1024, [⟨0, 16, 32⟩], 16, 2⟩, 0,
     none, TextureFormat.r8Unorm⟩],
   [], [], [(demoKey, demoTile)],
   [⟨⟨0, AtlasTextureKind.monochrome⟩, ⟨⟨0, 0⟩, ⟨16, 16⟩⟩, ⟨0, 0⟩⟩],
   1⟩

/-- The tile produced by allocating an oversized 2000x2000 rectangle in the
demonstration state: a fresh texture is created for it. -/
def demoTile3 : AtlasTile :=
  ⟨⟨1, AtlasTextureKind.monochrome⟩, 0, 0, ⟨⟨0, 0⟩, ⟨2000, 2000⟩⟩⟩

/-- demoState1 after the oversized allocation: a second 2000x2000 texture. -/
def demoState3 : BladeAtlasState :=
  ⟨⟨⟨65536⟩, [], [(⟨0, 65536⟩, 1)], 1⟩,
   [⟨⟨0, AtlasTextureKind.monochrome⟩, ⟨1024, 1024, [⟨0, 16, 16⟩], 16, 1⟩, 0,
     none, TextureFormat.r8Unorm⟩,
    ⟨⟨1, AtlasTextureKind.monochrome⟩, ⟨2000, 2000, [⟨0, 2000, 2000⟩], 2000, 1⟩, 1,
     none, TextureFormat.r8Unorm⟩],
   [], [], [(demoKey, demoTile)],
   [⟨⟨0, AtlasTextureKind.monochrome⟩, ⟨⟨0, 0⟩, ⟨16, 16⟩⟩, ⟨0, 0⟩⟩],
   2⟩

/-- Witness for atlas_allocate_newest_first: in the demonstration state a
16x16 request lands in the existing texture, while a 2000x2000 request is
rejected by every existing texture and creates a texture of its own size. -/
theorem atlas_allocate_newest_first_witness :
    demoState1.allocate ⟨16, 16⟩ AtlasTextureKind.monochrome =
      some (demoTile2, demoState2) ∧
    firstFitRevIdx ⟨2000, 2000⟩
      (demoState1.texturesOf AtlasTextureKind.monochrome) = none ∧
    demoState1.allocate ⟨2000, 2000⟩ AtlasTextureKind.monochrome =
      some (demoTile3, demoState3) := by
  have h1 := (atlas_allocate_newest_first demoState1 ⟨16, 16⟩
    AtlasTextureKind.monochrome).1 0 (by decide) (by decide)
  obtain ⟨-, tile, t2, -, halloc⟩ := h1
  have h2 := (atlas_allocate_newest_first demoState1 ⟨2000, 2000⟩
    AtlasTextureKind.monochrome).2.1.mpr (by decide)
  obtain ⟨tile3, t23, halloc3, -⟩ := (atlas_allocate_newest_first demoState1
    ⟨2000, 2000⟩ AtlasTextureKind.monochrome).2.2 h2
  have hc1 : demoState1.allocate ⟨16, 16⟩ AtlasTextureKind.monochrome =
      some (demoTile2, demoState2) := by decide
  have hc2 : demoState1.allocate ⟨2000, 2000⟩ AtlasTextureKind.monochrome =
      some (demoTile3, demoState3) := by decide
  exact ⟨hc1, h2, hc2⟩

/-- A device-pixel point lies inside a bounds rectangle (half-open). -/
def Bounds.containsPt (b : Bounds) (px py : Nat) : Prop :=
  b.origin.x ≤ px ∧ px < b.origin.x + b.size.width ∧
  b.origin.y ≤ py ∧ py < b.origin.y + b.size.height

/-- Two rectangles are disjoint: their intersection is empty. -/
def disjointBounds (a b : Bounds) : Prop :=
  ∀ px py, ¬ (a.containsPt px py ∧ b.containsPt px py)

theorem disjointBounds_symm {a b : Bounds} (h : disjointBounds a b) :
    disjointBounds b a := by
  intro px py hpt
  exact h px py ⟨hpt.2, hpt.1⟩

/-- Shelves stacked upward, starting at or above lo and ending at or below
top. -/
def shelvesChain : Nat → List Shelf → Nat → Prop
  | lo, [], top => lo ≤ top
  | lo, s :: rest, top => lo ≤ s.y ∧ shelvesChain (s.y + s.height) rest top

theorem shelvesChain_le {lo top : Nat} : ∀ {l : List Shelf},
    shelvesChain lo l top → lo ≤ top := by
  intro l
  induction l generalizing lo with
  | nil => intro h; exact h
  | cons s rest ih =>
    intro h
    have h1 := h.1
    have h2 := ih h.2
    omega

theorem shelvesChain_mem_bounds {lo top : Nat} : ∀ {l : List Shelf},
    shelvesChain lo l top → ∀ sh ∈ l, lo ≤ sh.y ∧ sh.y + sh.height ≤ top := by
  intro l
  induction l generalizing lo with
  | nil => intro _ sh hsh; cases hsh
  | cons s rest ih =>
    intro h sh hsh
    rcases List.mem_cons.mp hsh with rfl | hsh2
    · exact ⟨h.1, shelvesChain_le h.2⟩
    · have h1 := h.1
      have h2 := ih h.2 sh hsh2
      omega

theorem shelvesChain_band_eq {lo top : Nat} : ∀ {l : List Shelf},
    shelvesChain lo l top → ∀ s1 ∈ l, ∀ s2 ∈ l, ∀ py : Nat,
      s1.y ≤ py → py < s1.y + s1.height → s2.y ≤ py → py < s2.y + s2.height →
      s1 = s2 := by
  intro l
  induction l generalizing lo with
  | nil => intro _ s1 h1; cases h1
  | cons s rest ih =>
    intro h s1 h1 s2 h2 py hy1 hy2 hy3 hy4
    rcases List.mem_cons.mp h1 with rfl | h1b
    · rcases List.mem_cons.mp h2 with rfl | h2b
      · rfl
      · exfalso
        have := (shelvesChain_mem_bounds h.2 s2 h2b).1
        omega
    · rcases List.mem_cons.mp h2 with rfl | h2b
      · exfalso
        have := (shelvesChain_mem_bounds h.2 s1 h1b).1
        omega
      · exact ih h.2 s1 h1b s2 h2b py hy1 hy2 hy3 hy4

theorem shelvesChain_append {lo top h w : Nat} : ∀ {l : List Shelf},
    shelvesChain lo l top →
      shelvesChain lo (l ++ [⟨top, h, w⟩]) (top + h) := by
  intro l
  induction l generalizing lo with
  | nil =>
    intro hc
    exact ⟨hc, Nat.le_refl _⟩
  | cons s rest ih =>
    intro hc
    exact ⟨hc.1, ih hc.2⟩

/-- A tile's bounds lie inside the used part of a shelf: within the shelf's
vertical band and left of the shelf's cursor. -/
def inShelfUsed (b : Bounds) (sh : Shelf) : Prop :=
  sh.y ≤ b.origin.y ∧ b.origin.y + b.size.height ≤ sh.y + sh.height ∧
  b.origin.x + b.size.width ≤ sh.x

/-- Allocator invariant relative to the rectangles handed out so far: the
shelves form an upward chain below shelfTop, and every handed-out rectangle
sits in the used part of one of the current shelves. -/
def allocatorInv (a : BucketedAtlasAllocator) (R : List Bounds) : Prop :=
  shelvesChain 0 a.shelves a.shelfTop ∧
  ∀ r ∈ R, ∃ sh ∈ a.shelves, inShelfUsed r sh

theorem shelfPlace_chain {w h width : Nat} : ∀ {l : List Shelf}
    {x y : Nat} {l2 : List Shelf} {lo top : Nat},
    shelfPlace w h width l = some (x, y, l2) →
    shelvesChain lo l top → shelvesChain lo l2 top := by
  intro l
  induction l with
  | nil => intro x y l2 lo top hp; simp [shelfPlace] at hp
  | cons s rest ih =>
    intro x y l2 lo top hp hc
    simp only [shelfPlace] at hp
    by_cases hcond : h ≤ s.height ∧ s.x + w ≤ width
    · rw [if_pos hcond] at hp
      simp only [Option.some.injEq, Prod.mk.injEq] at hp
      obtain ⟨rfl, rfl, rfl⟩ := hp
      exact ⟨hc.1, hc.2⟩
    · rw [if_neg hcond] at hp
      cases hrec : shelfPlace w h width rest with
      | none => rw [hrec] at hp; cases hp
      | some pr =>
        obtain ⟨x2, y2, rest2⟩ := pr
        rw [hrec] at hp
        simp only [Option.some.injEq, Prod.mk.injEq] at hp
        obtain ⟨rfl, rfl, rfl⟩ := hp
        exact ⟨hc.1, ih hrec hc.2⟩

theorem shelfPlace_mono {w h width : Nat} : ∀ {l : List Shelf}
    {x y : Nat} {l2 : List Shelf},
    shelfPlace w h width l = some (x, y, l2) →
    ∀ sh ∈ l, ∃ sh2 ∈ l2, sh2.y = sh.y ∧ sh2.height = sh.height ∧ sh.x ≤ sh2.x := by
  intro l
  induction l with
  | nil => intro x y l2 hp; simp [shelfPlace] at hp
  | cons s rest ih =>
    intro x y l2 hp sh hsh
    simp only [shelfPlace] at hp
    by_cases hcond : h ≤ s.height ∧ s.x + w ≤ width
    · rw [if_pos hcond] at hp
      simp only [Option.some.injEq, Prod.mk.injEq] at hp
      obtain ⟨rfl, rfl, rfl⟩ := hp
      rcases List.mem_cons.mp hsh with rfl | hsh2
      · exact ⟨{ sh with x := sh.x + w }, List.mem_cons_self _ _, rfl, rfl, Nat.le_add_right _ _⟩
      · exact ⟨sh, List.mem_cons_of_mem _ hsh2, rfl, rfl, Nat.le_refl _⟩
    · rw [if_neg hcond] at hp
      cases hrec : shelfPlace w h width rest with
      | none => rw [hrec] at hp; cases hp
      | some pr =>
        obtain ⟨x2, y2, rest2⟩ := pr
        rw [hrec] at hp
        simp only [Option.some.injEq, Prod.mk.injEq] at hp
        obtain ⟨rfl, rfl, rfl⟩ := hp
        rcases List.mem_cons.mp hsh with rfl | hsh2
        · exact ⟨sh, List.mem_cons_self _ _, rfl, rfl, Nat.le_refl _⟩
        · obtain ⟨sh2, hmem, he1, he2, he3⟩ := ih hrec sh hsh2
          exact ⟨sh2, List.mem_cons_of_mem _ hmem, he1, he2, he3⟩

theorem shelfPlace_found {w h width : Nat} : ∀ {l : List Shelf}
    {x y : Nat} {l2 : List Shelf},
    shelfPlace w h width l = some (x, y, l2) →
    ∃ sh ∈ l, h ≤ sh.height ∧ sh.x + w ≤ width ∧ x = sh.x ∧ y = sh.y ∧
      (⟨sh.y, sh.height, sh.x + w⟩ : Shelf) ∈ l2 := by
  intro l
  induction l with
  | nil => intro x y l2 hp; simp [shelfPlace] at hp
  | cons s rest ih =>
    intro x y l2 hp
    simp only [shelfPlace] at hp
    by_cases hcond : h ≤ s.height ∧ s.x + w ≤ width
    · rw [if_pos hcond] at hp
      simp only [Option.some.injEq, Prod.mk.injEq] at hp
      obtain ⟨rfl, rfl, rfl⟩ := hp
      exact ⟨s, List.mem_cons_self _ _, hcond.1, hcond.2, rfl, rfl,
        List.mem_cons_self _ _⟩
    · rw [if_neg hcond] at hp
      cases hrec : shelfPlace w h width rest with
      | none => rw [hrec] at hp; cases hp
      | some pr =>
        obtain ⟨x2, y2, rest2⟩ := pr
        rw [hrec] at hp
        simp only [Option.some.injEq, Prod.mk.injEq] at hp
        obtain ⟨rfl, rfl, rfl⟩ := hp
        obtain ⟨sh, hmem, hh, hw, hx, hy, hmem2⟩ := ih hrec
        exact ⟨sh, List.mem_cons_of_mem _ hmem, hh, hw, hx, hy,
          List.mem_cons_of_mem _ hmem2⟩

/-- Core packing-correctness step: a successful allocation preserves the
allocator invariant with the new rectangle recorded, and the new rectangle
is disjoint from every rectangle handed out before. -/
theorem allocate_step (a : BucketedAtlasAllocator) (R : List Bounds)
    (size : Size) (allocation : Allocation) (a2 : BucketedAtlasAllocator)
    (hInv : allocatorInv a R)
    (h : a.allocate size = some (allocation, a2)) :
    allocatorInv a2 (R ++ [⟨⟨allocation.minX, allocation.minY⟩, size⟩]) ∧
    ∀ r ∈ R, disjointBounds r ⟨⟨allocation.minX, allocation.minY⟩, size⟩ := by
  obtain ⟨hchain, hrects⟩ := hInv
  unfold BucketedAtlasAllocator.allocate at h
  cases hp : shelfPlace size.width size.height a.width a.shelves with
  | some pr =>
    obtain ⟨x, y, shelves2⟩ := pr
    rw [hp] at h
    simp only [Option.some.injEq, Prod.mk.injEq] at h
    obtain ⟨rfl, rfl⟩ := h
    obtain ⟨sh, hshmem, hh, hw, rfl, rfl, hmem2⟩ := shelfPlace_found hp
    constructor
    · constructor
      · exact shelfPlace_chain hp hchain
      · intro r hr
        rcases List.mem_append.mp hr with hr1 | hr2
        · obtain ⟨shr, hshr, hin⟩ := hrects r hr1
          obtain ⟨sh2, hsh2, he1, he2, he3⟩ := shelfPlace_mono hp shr hshr
          exact ⟨sh2, hsh2,
            by rw [he1]; exact hin.1,
            by rw [he1, he2]; exact hin.2.1,
            by have := hin.2.2; omega⟩
        · rw [List.mem_singleton] at hr2
          subst hr2
          refine ⟨⟨sh.y, sh.height, sh.x + size.width⟩, hmem2, ?_, ?_, ?_⟩
          · exact Nat.le_refl _
          · simpa using hh
          · simp
    · intro r hr px py hpt
      obtain ⟨hrx1, hrx2, hry1, hry2⟩ := hpt.1
      obtain ⟨hnx1, hnx2, hny1, hny2⟩ := hpt.2
      dsimp only at hnx1 hnx2 hny1 hny2
      obtain ⟨shr, hshr, hin⟩ := hrects r hr
      have hsame : shr = sh := by
        have hi1 := hin.1
        have hi2 := hin.2.1
        apply shelvesChain_band_eq hchain shr hshr sh hshmem py
        · omega
        · omega
        · exact hny1
        · omega
      have hxend : r.origin.x + r.size.width ≤ sh.x := by
        rw [hsame] at hin
        exact hin.2.2
      omega
  | none =>
    rw [hp] at h
    by_cases hcond : size.width ≤ a.width ∧ a.shelfTop + size.height ≤ a.height
    · rw [if_pos hcond] at h
      simp only [Option.some.injEq, Prod.mk.injEq] at h
      obtain ⟨rfl, rfl⟩ := h
      constructor
      · constructor
        · exact shelvesChain_append hchain
        · intro r hr
          rcases List.mem_append.mp hr with hr1 | hr2
          · obtain ⟨shr, hshr, hin⟩ := hrects r hr1
            exact ⟨shr, List.mem_append_left _ hshr, hin⟩
          · rw [List.mem_singleton] at hr2
            subst hr2
            refine ⟨⟨a.shelfTop, size.height, size.width⟩,
              List.mem_append_right _ (List.mem_singleton.mpr rfl), ?_, ?_, ?_⟩
            · exact Nat.le_refl _
            · simp
            · simp
      · intro r hr px py hpt
        obtain ⟨hrx1, hrx2, hry1, hry2⟩ := hpt.1
        obtain ⟨hnx1, hnx2, hny1, hny2⟩ := hpt.2
        dsimp only at hnx1 hnx2 hny1 hny2
        obtain ⟨shr, hshr, hin⟩ := hrects r hr
        have hband := shelvesChain_mem_bounds hchain shr hshr
        have h1 : py < shr.y + shr.height := by
          have := hin.2.1; omega
        have h2 : a.shelfTop ≤ py := by simpa using hny1
        omega
    · rw [if_neg hcond] at h; cases h

/-- The bounds of all tiles handed out so far that live in one texture. -/
def tileBoundsOf (tiles : List AtlasTile) (tid : AtlasTextureId) : List Bounds :=
  (tiles.filter (fun t => decide (t.texture_id = tid))).map (fun t => t.bounds)

theorem tileBoundsOf_append_ne (tiles : List AtlasTile) (tile : AtlasTile)
    (tid : AtlasTextureId) (h : tile.texture_id ≠ tid) :
    tileBoundsOf (tiles ++ [tile]) tid = tileBoundsOf tiles tid := by
  simp [tileBoundsOf, List.filter_append, List.filter, h]

theorem tileBoundsOf_append_eq (tiles : List AtlasTile) (tile : AtlasTile)
    (tid : AtlasTextureId) (h : tile.texture_id = tid) :
    tileBoundsOf (tiles ++ [tile]) tid =
      tileBoundsOf tiles tid ++ [tile.bounds] := by
  simp [tileBoundsOf, List.filter_append, List.filter, h]

theorem tileBoundsOf_eq_nil (tiles : List AtlasTile) (tid : AtlasTextureId)
    (h : ∀ t ∈ tiles, t.texture_id ≠ tid) : tileBoundsOf tiles tid = [] := by
  induction tiles with
  | nil => rfl
  | cons t rest ih =>
    have h1 := h t (List.mem_cons_self _ _)
    have hrec := ih (fun t2 ht2 => h t2 (List.mem_cons_of_mem _ ht2))
    simp only [tileBoundsOf, List.filter, decide_eq_false h1] at hrec ⊢
    exact hrec

theorem mem_tileBoundsOf (tiles : List AtlasTile) (t : AtlasTile)
    (tid : AtlasTextureId) (h : t ∈ tiles) (heq : t.texture_id = tid) :
    t.bounds ∈ tileBoundsOf tiles tid := by
  apply List.mem_map.mpr
  exact ⟨t, List.mem_filter.mpr ⟨h, by simp [heq]⟩, rfl⟩

theorem texturesOf_setTextures_self (s : BladeAtlasState)
    (kind : AtlasTextureKind) (ts : List BladeAtlasTexture) :
    (s.setTextures kind ts).texturesOf kind = ts := by
  cases kind <;> rfl

theorem texturesOf_setTextures_ne (s : BladeAtlasState)
    (kind : AtlasTextureKind) (ts : List BladeAtlasTexture)
    (kind2 : AtlasTextureKind) (h : kind2 ≠ kind) :
    (s.setTextures kind ts).texturesOf kind2 = s.texturesOf kind2 := by
  cases kind <;> cases kind2 <;> first | rfl | exact absurd rfl h

theorem texturesOf_setHandle (s : BladeAtlasState) (n : Nat)
    (kind : AtlasTextureKind) :
    ({ s with next_gpu_handle := n } : BladeAtlasState).texturesOf kind =
      s.texturesOf kind := by
  cases kind <;> rfl

theorem push_texture_texturesOf_ne (s : BladeAtlasState) (size : Size)
    (kind kind2 : AtlasTextureKind) (h : kind2 ≠ kind) :
    ((s.push_texture size kind).2).texturesOf kind2 = s.texturesOf kind2 := by
  unfold BladeAtlasState.push_texture
  dsimp only
  rw [texturesOf_setHandle, texturesOf_setTextures_ne _ _ _ _ h]

theorem texAllocate_spec (t : BladeAtlasTexture) (size : Size)
    (tile : AtlasTile) (t2 : BladeAtlasTexture)
    (h : t.allocate size = some (tile, t2)) :
    ∃ allocation a2, t.allocator.allocate size = some (allocation, a2) ∧
      tile = ⟨t.id, allocation.id, 0, ⟨⟨allocation.minX, allocation.minY⟩, size⟩⟩ ∧
      t2 = { t with allocator := a2 } := by
  unfold BladeAtlasTexture.allocate at h
  cases hA : t.allocator.allocate size with
  | none => rw [hA] at h; cases h
  | some pr =>
    obtain ⟨allocation, a2⟩ := pr
    rw [hA] at h
    simp only [Option.some.injEq, Prod.mk.injEq] at h
    obtain ⟨h1, h2⟩ := h
    exact ⟨allocation, a2, rfl, h1.symm, h2.symm⟩

theorem allocFromNewest_some_fit (size : Size) (l : List BladeAtlasTexture)
    (tile : AtlasTile) (ts2 : List BladeAtlasTexture)
    (h : allocFromNewest size l = some (tile, ts2)) :
    ∃ i, ∃ hi : i < l.length, ∃ t2,
      (l.get ⟨i, hi⟩).allocate size = some (tile, t2) ∧ ts2 = l.set i t2 := by
  cases hfit : firstFitRevIdx size l with
  | none => rw [allocFromNewest_eq_none size l hfit] at h; cases h
  | some i =>
    have hi := firstFitRevIdx_lt size l i hfit
    obtain ⟨tile2, t2, hget, halloc⟩ := allocFromNewest_eq_of_fit size l i hi hfit
    rw [h] at halloc
    simp only [Option.some.injEq, Prod.mk.injEq] at halloc
    obtain ⟨rfl, rfl⟩ := halloc
    exact ⟨i, hi, t2, hget, rfl⟩

/-- Per-pool invariant: the texture at position i of a pool of kind k
carries id (i, k), and its allocator satisfies the packing invariant for
the tiles recorded against that id. -/
def texListInv (ts : List BladeAtlasTexture) (kind : AtlasTextureKind)
    (tiles : List AtlasTile) : Prop :=
  ∀ (i : Nat) (hi : i < ts.length),
    (ts.get ⟨i, hi⟩).id = ⟨i, kind⟩ ∧
    allocatorInv (ts.get ⟨i, hi⟩).allocator (tileBoundsOf tiles ⟨i, kind⟩)

theorem texListInv_set (ts : List BladeAtlasTexture) (kind : AtlasTextureKind)
    (tiles : List AtlasTile) (i : Nat) (t2 : BladeAtlasTexture)
    (tile : AtlasTile) (hinv : texListInv ts kind tiles)
    (hid2 : t2.id = ⟨i, kind⟩) (htid : tile.texture_id = ⟨i, kind⟩)
    (hai : allocatorInv t2.allocator
      (tileBoundsOf tiles ⟨i, kind⟩ ++ [tile.bounds])) :
    texListInv (ts.set i t2) kind (tiles ++ [tile]) := by
  intro j hj
  have hj2 : j < ts.length := by rw [List.length_set] at hj; exact hj
  by_cases hij : j = i
  · subst hij
    have hget : (ts.set j t2).get ⟨j, hj⟩ = t2 := List.get_set_eq hj
    rw [hget, tileBoundsOf_append_eq _ _ _ htid]
    exact ⟨hid2, hai⟩
  · have hget : (ts.set i t2).get ⟨j, hj⟩ = ts.get ⟨j, hj2⟩ :=
      List.get_set_ne (fun he => hij he.symm) hj
    rw [hget]
    have hne : tile.texture_id ≠ ⟨j, kind⟩ := by
      rw [htid]
      intro he
      injection he with h1 h2
      exact hij h1.symm
    rw [tileBoundsOf_append_ne _ _ _ hne]
    exact hinv j hj2

theorem texListInv_append_fresh (ts : List BladeAtlasTexture)
    (kind : AtlasTextureKind) (tiles : List AtlasTile)
    (t2 : BladeAtlasTexture) (tile : AtlasTile)
    (hinv : texListInv ts kind tiles)
    (hid2 : t2.id = ⟨ts.length, kind⟩)
    (htid : tile.texture_id = ⟨ts.length, kind⟩)
    (hnil : tileBoundsOf tiles ⟨ts.length, kind⟩ = [])
    (hai : allocatorInv t2.allocator [tile.bounds]) :
    texListInv (ts ++ [t2]) kind (tiles ++ [tile]) := by
  intro j hj
  have hj3 : j < ts.length + 1 := by
    simpa using hj
  by_cases hij : j = ts.length
  · subst hij
    have hget : (ts ++ [t2]).get ⟨ts.length, hj⟩ = t2 := by
      rw [List.get_eq_getElem]
      exact List.getElem_concat_length _ _ _ rfl _
    rw [hget, tileBoundsOf_append_eq _ _ _ htid, hnil]
    exact ⟨hid2, by simpa using hai⟩
  · have hj2 : j < ts.length := by omega
    have hget : (ts ++ [t2]).get ⟨j, hj⟩ = ts.get ⟨j, hj2⟩ := by
      rw [List.get_eq_getElem, List.get_eq_getElem]
      exact List.getElem_append_left hj2
    rw [hget]
    have hne : tile.texture_id ≠ ⟨j, kind⟩ := by
      rw [htid]
      intro he
      injection he with h1 h2
      exact hij h1.symm
    rw [tileBoundsOf_append_ne _ _ _ hne]
    exact hinv j hj2

theorem texListInv_other (ts : List BladeAtlasTexture)
    (kind : AtlasTextureKind) (tiles : List AtlasTile) (tile : AtlasTile)
    (hinv : texListInv ts kind tiles)
    (hkind : tile.texture_id.kind ≠ kind) :
    texListInv ts kind (tiles ++ [tile]) := by
  intro j hj
  have hne : tile.texture_id ≠ ⟨j, kind⟩ := fun he => hkind (by rw [he])
  rw [tileBoundsOf_append_ne _ _ _ hne]
  exact hinv j hj

/-- Atlas invariant relative to the tiles handed out so far. -/
def AtlasInv (s : BladeAtlasState) (tiles : List AtlasTile) : Prop :=
  (∀ kind : AtlasTextureKind, texListInv (s.texturesOf kind) kind tiles) ∧
  ∀ t ∈ tiles, t.texture_id.index < (s.texturesOf t.texture_id.kind).length

theorem atlas_allocate_inv_step (s : BladeAtlasState) (tiles : List AtlasTile)
    (size : Size) (kind : AtlasTextureKind) (tile : AtlasTile)
    (s2 : BladeAtlasState) (hInv : AtlasInv s tiles)
    (h : s.allocate size kind = some (tile, s2)) :
    AtlasInv s2 (tiles ++ [tile]) ∧
    ∀ t ∈ tiles, t.texture_id = tile.texture_id →
      disjointBounds t.bounds tile.bounds := by
  obtain ⟨hTex, hIdx⟩ := hInv
  unfold BladeAtlasState.allocate at h
  cases hA : allocFromNewest size (s.texturesOf kind) with
  | some pr =>
    obtain ⟨tile0, ts2⟩ := pr
    rw [hA] at h
    dsimp only at h
    simp only [Option.some.injEq, Prod.mk.injEq] at h
    obtain ⟨rfl, rfl⟩ := h
    obtain ⟨i, hi, t2, hget, rfl⟩ := allocFromNewest_some_fit size _ _ _ hA
    obtain ⟨allocation, a2, hAlloc, htile, ht2⟩ := texAllocate_spec _ _ _ _ hget
    have hid : ((s.texturesOf kind).get ⟨i, hi⟩).id = ⟨i, kind⟩ :=
      (hTex kind i hi).1
    have htid : tile0.texture_id = ⟨i, kind⟩ := by rw [htile]; exact hid
    have hbounds : tile0.bounds = ⟨⟨allocation.minX, allocation.minY⟩, size⟩ := by
      rw [htile]
    have hstep := allocate_step _ (tileBoundsOf tiles ⟨i, kind⟩) size allocation a2
      (hTex kind i hi).2 hAlloc
    have hlen : ∀ k : AtlasTextureKind,
        ((s.setTextures kind ((s.texturesOf kind).set i t2)).texturesOf k).length =
          (s.texturesOf k).length := by
      intro k
      by_cases hk : k = kind
      · subst hk
        rw [texturesOf_setTextures_self, List.length_set]
      · rw [texturesOf_setTextures_ne _ _ _ _ hk]
    refine ⟨⟨?_, ?_⟩, ?_⟩
    · intro kind2
      by_cases hk : kind2 = kind
      · subst hk
        rw [texturesOf_setTextures_self]
        apply texListInv_set _ _ _ _ _ _ (hTex kind2)
        · rw [ht2]
          exact hid
        · exact htid
        · rw [← hbounds] at hstep
          rw [ht2]
          exact hstep.1
      · rw [texturesOf_setTextures_ne _ _ _ _ hk]
        apply texListInv_other _ _ _ _ (hTex kind2)
        rw [htid]
        exact fun he => hk he.symm
    · intro t ht
      rcases List.mem_append.mp ht with ht1 | ht2b
      · rw [hlen]
        exact hIdx t ht1
      · rw [List.mem_singleton] at ht2b
        subst ht2b
        rw [hlen, htid]
        exact hi
    · intro t ht heq
      have hmem := mem_tileBoundsOf tiles t ⟨i, kind⟩ ht (heq.trans htid)
      have hd := hstep.2 t.bounds hmem
      rw [hbounds]
      exact hd
  | none =>
    rw [hA] at h
    dsimp only at h
    cases hPA : (s.push_texture size kind).1.allocate size with
    | none => rw [hPA] at h; cases h
    | some pr =>
      obtain ⟨tile0, t2⟩ := pr
      rw [hPA] at h
      dsimp only at h
      simp only [Option.some.injEq, Prod.mk.injEq] at h
      obtain ⟨rfl, rfl⟩ := h
      obtain ⟨allocation, a2, hAlloc, htile, ht2⟩ := texAllocate_spec _ _ _ _ hPA
      have hidfresh : (s.push_texture size kind).1.id =
          ⟨(s.texturesOf kind).length, kind⟩ := rfl
      have htid : tile0.texture_id = ⟨(s.texturesOf kind).length, kind⟩ := by
        rw [htile]
        exact hidfresh
      have hbounds : tile0.bounds = ⟨⟨allocation.minX, allocation.minY⟩, size⟩ := by
        rw [htile]
      have hnil : tileBoundsOf tiles ⟨(s.texturesOf kind).length, kind⟩ = [] := by
        apply tileBoundsOf_eq_nil
        intro t ht he
        have hb := hIdx t ht
        rw [he] at hb
        dsimp only at hb
        omega
      have hInvFresh : allocatorInv (s.push_texture size kind).1.allocator [] :=
        ⟨Nat.le_refl 0, fun r hr => absurd hr (List.not_mem_nil _)⟩
      have hstep := allocate_step _ [] size allocation a2 hInvFresh hAlloc
      refine ⟨⟨?_, ?_⟩, ?_⟩
      · intro kind2
        by_cases hk : kind2 = kind
        · subst hk
          rw [texturesOf_setTextures_self]
          apply texListInv_append_fresh _ _ _ _ _ (hTex kind2)
          · rw [ht2]
            exact hidfresh
          · exact htid
          · exact hnil
          · rw [← hbounds] at hstep
            rw [ht2]
            have := hstep.1.2
            exact ⟨hstep.1.1, by simpa using hstep.1.2⟩
        · rw [texturesOf_setTextures_ne _ _ _ _ hk,
            push_texture_texturesOf_ne _ _ _ _ hk]
          apply texListInv_other _ _ _ _ (hTex kind2)
          rw [htid]
          exact fun he => hk he.symm
      · intro t ht
        have hlen2 : ∀ k : AtlasTextureKind,
            (s.texturesOf k).length ≤
              (((s.push_texture size kind).2.setTextures kind
                (s.texturesOf kind ++ [t2])).texturesOf k).length := by
          intro k
          by_cases hk : k = kind
          · subst hk
            rw [texturesOf_setTextures_self, List.length_append]
            simp
          · rw [texturesOf_setTextures_ne _ _ _ _ hk,
              push_texture_texturesOf_ne _ _ _ _ hk]
        rcases List.mem_append.mp ht with ht1 | ht2b
        · exact Nat.lt_of_lt_of_le (hIdx t ht1) (hlen2 _)
        · rw [List.mem_singleton] at ht2b
          subst ht2b
          rw [htid]
          dsimp only
          rw [texturesOf_setTextures_self, List.length_append]
          simp
      · intro t ht heq
        exfalso
        have hb := hIdx t ht
        rw [heq, htid] at hb
        dsimp only at hb
        omega

/-- Run a sequence of BladeAtlasState::allocate calls of one kind,
collecting the returned tiles (a panic, which never occurs, would drop the
request). -/
def runAtlasAllocs (s : BladeAtlasState) (kind : AtlasTextureKind) :
    List Size → List AtlasTile × BladeAtlasState
  | [] => ([], s)
  | sz :: rest =>
    match s.allocate sz kind with
    | some (tile, s2) =>
      let r := runAtlasAllocs s2 kind rest
      (tile :: r.1, r.2)
    | none => runAtlasAllocs s kind rest

/-- Two tiles in the same texture have disjoint bounds. -/
def tileDisj (t1 t2 : AtlasTile) : Prop :=
  t1.texture_id = t2.texture_id → disjointBounds t1.bounds t2.bounds

theorem AtlasInv_new : AtlasInv BladeAtlasState.new [] := by
  constructor
  · intro kind i hi
    cases kind <;> simp [BladeAtlasState.new, BladeAtlasState.texturesOf] at hi
  · intro t ht
    cases ht

theorem runAtlasAllocs_inv (kind : AtlasTextureKind) (szs : List Size) :
    ∀ (s : BladeAtlasState) (tiles : List AtlasTile),
      AtlasInv s tiles → List.Pairwise tileDisj tiles →
      AtlasInv (runAtlasAllocs s kind szs).2
        (tiles ++ (runAtlasAllocs s kind szs).1) ∧
      List.Pairwise tileDisj (tiles ++ (runAtlasAllocs s kind szs).1) := by
  induction szs with
  | nil =>
    intro s tiles h1 h2
    simpa [runAtlasAllocs] using (And.intro h1 h2)
  | cons sz rest ih =>
    intro s tiles h1 h2
    cases hA : s.allocate sz kind with
    | none =>
      simp only [runAtlasAllocs, hA]
      exact ih s tiles h1 h2
    | some pr =>
      obtain ⟨tile, s2⟩ := pr
      obtain ⟨hInv2, hdisj⟩ := atlas_allocate_inv_step s tiles sz kind tile s2
        ⟨h1.1, h1.2⟩ hA
      have hpw2 : List.Pairwise tileDisj (tiles ++ [tile]) := by
        rw [List.pairwise_append]
        refine ⟨h2, List.pairwise_singleton _ _, ?_⟩
        intro a ha b hb
        rw [List.mem_singleton] at hb
        subst hb
        intro he
        exact hdisj a ha he
      have hrec := ih s2 (tiles ++ [tile]) hInv2 hpw2
      simp only [runAtlasAllocs, hA]
      have hre : tiles ++ tile :: (runAtlasAllocs s2 kind rest).1 =
          (tiles ++ [tile]) ++ (runAtlasAllocs s2 kind rest).1 := by
        simp
      constructor
      · dsimp only
        rw [hre]
        exact hrec.1
      · dsimp only
        rw [hre]
        exact hrec.2

theorem runAtlasAllocs_append (kind : AtlasTextureKind)
    (szs more : List Size) : ∀ s : BladeAtlasState,
    (runAtlasAllocs s kind (szs ++ more)).1 =
      (runAtlasAllocs s kind szs).1 ++
        (runAtlasAllocs (runAtlasAllocs s kind szs).2 kind more).1 ∧
    (runAtlasAllocs s kind (szs ++ more)).2 =
      (runAtlasAllocs (runAtlasAllocs s kind szs).2 kind more).2 := by
  induction szs with
  | nil => intro s; simp [runAtlasAllocs]
  | cons sz rest ih =>
    intro s
    cases hA : s.allocate sz kind with
    | none =>
      simp only [List.cons_append, runAtlasAllocs, hA]
      exact ih s
    | some pr =>
      obtain ⟨tile, s2⟩ := pr
      simp only [List.cons_append, runAtlasAllocs, hA]
      have hrec := ih s2
      simp only [List.append_eq]
      rw [hrec.1, hrec.2]
      simp

/-- C2: over any sequence of allocate calls of one kind from a fresh atlas
(no intervening clear), any two tiles at distinct positions that share a
texture have disjoint (empty-intersection) bounds; and the tiles returned
by a run are a stable prefix of any longer run, so a tile's bounds never
change after its allocation. -/
theorem atlas_tiles_disjoint (kind : AtlasTextureKind) (szs : List Size) :
    (∀ (i j : Nat)
        (hi : i < ((runAtlasAllocs BladeAtlasState.new kind szs).1).length)
        (hj : j < ((runAtlasAllocs BladeAtlasState.new kind szs).1).length),
        i ≠ j →
        (((runAtlasAllocs BladeAtlasState.new kind szs).1).get ⟨i, hi⟩).texture_id =
          (((runAtlasAllocs BladeAtlasState.new kind szs).1).get ⟨j, hj⟩).texture_id →
        disjointBounds
          (((runAtlasAllocs BladeAtlasState.new kind szs).1).get ⟨i, hi⟩).bounds
          (((runAtlasAllocs BladeAtlasState.new kind szs).1).get ⟨j, hj⟩).bounds) ∧
    ∀ more : List Size,
      (runAtlasAllocs BladeAtlasState.new kind (szs ++ more)).1 =
        (runAtlasAllocs BladeAtlasState.new kind szs).1 ++
          (runAtlasAllocs (runAtlasAllocs BladeAtlasState.new kind szs).2
            kind more).1 := by
  constructor
  · have h := runAtlasAllocs_inv kind szs BladeAtlasState.new [] AtlasInv_new
      List.Pairwise.nil
    have hpw : List.Pairwise tileDisj
        ((runAtlasAllocs BladeAtlasState.new kind szs).1) := by
      simpa using h.2
    intro i j hi hj hne heq
    rcases Nat.lt_or_ge i j with hij | hge
    · exact (List.pairwise_iff_get.mp hpw ⟨i, hi⟩ ⟨j, hj⟩ hij) heq
    · have hij2 : j < i := by omega
      exact disjointBounds_symm
        ((List.pairwise_iff_get.mp hpw ⟨j, hj⟩ ⟨i, hi⟩ hij2) heq.symm)
  · intro more
    exact (runAtlasAllocs_append kind szs more BladeAtlasState.new).1

/-- Witness for atlas_tiles_disjoint: two 16x16 allocations land side by
side in one texture and their rectangles are disjoint; a third request
extends the run without disturbing the first two tiles. -/
theorem atlas_tiles_disjoint_witness :
    disjointBounds (⟨⟨0, 0⟩, ⟨16, 16⟩⟩ : Bounds) (⟨⟨16, 0⟩, ⟨16, 16⟩⟩ : Bounds) ∧
    (runAtlasAllocs BladeAtlasState.new AtlasTextureKind.monochrome
        ([⟨16, 16⟩, ⟨16, 16⟩] ++ [⟨32, 32⟩])).1 =
      (runAtlasAllocs BladeAtlasState.new AtlasTextureKind.monochrome
        [⟨16, 16⟩, ⟨16, 16⟩]).1 ++
        (runAtlasAllocs (runAtlasAllocs BladeAtlasState.new
          AtlasTextureKind.monochrome [⟨16, 16⟩, ⟨16, 16⟩]).2
          AtlasTextureKind.monochrome [⟨32, 32⟩]).1 := by
  have h := atlas_tiles_disjoint AtlasTextureKind.monochrome [⟨16, 16⟩, ⟨16, 16⟩]
  have h1 := h.1 0 1 (by decide) (by decide) (by decide) (by decide)
  exact ⟨h1, h.2 [⟨32, 32⟩]⟩

theorem allocator_allocate_dims (a : BucketedAtlasAllocator) (size : Size)
    (alloc2 : Allocation) (a2 : BucketedAtlasAllocator)
    (h : a.allocate size = some (alloc2, a2)) :
    a2.width = a.width ∧ a2.height = a.height := by
  unfold BucketedAtlasAllocator.allocate at h
  cases hp : shelfPlace size.width size.height a.width a.shelves with
  | some pr =>
    obtain ⟨x, y, shelves2⟩ := pr
    rw [hp] at h
    simp only [Option.some.injEq, Prod.mk.injEq] at h
    obtain ⟨-, rfl⟩ := h
    exact ⟨rfl, rfl⟩
  | none =>
    rw [hp] at h
    by_cases hcond : size.width ≤ a.width ∧ a.shelfTop + size.height ≤ a.height
    · rw [if_pos hcond] at h
      simp only [Option.some.injEq, Prod.mk.injEq] at h
      obtain ⟨-, rfl⟩ := h
      exact ⟨rfl, rfl⟩
    · rw [if_neg hcond] at h; cases h

theorem setTextures_setTextures (s : BladeAtlasState) (kind : AtlasTextureKind)
    (A B : List BladeAtlasTexture) :
    (s.setTextures kind A).setTextures kind B = s.setTextures kind B := by
  cases kind <;> rfl

theorem setTextures_eq_self (s : BladeAtlasState) (kind : AtlasTextureKind)
    (ts : List BladeAtlasTexture) (h : s.texturesOf kind = ts) :
    s.setTextures kind ts = s := by
  subst h
  cases kind <;> rfl

theorem allocate_textures_length_mono (s : BladeAtlasState) (size : Size)
    (kind : AtlasTextureKind) (tile : AtlasTile) (s2 : BladeAtlasState)
    (h : s.allocate size kind = some (tile, s2)) (k : AtlasTextureKind) :
    (s.texturesOf k).length ≤ (s2.texturesOf k).length := by
  unfold BladeAtlasState.allocate at h
  cases hA : allocFromNewest size (s.texturesOf kind) with
  | some pr =>
    obtain ⟨tile0, ts2⟩ := pr
    rw [hA] at h
    dsimp only at h
    simp only [Option.some.injEq, Prod.mk.injEq] at h
    obtain ⟨rfl, rfl⟩ := h
    obtain ⟨i, hi, t2, hget, rfl⟩ := allocFromNewest_some_fit size _ _ _ hA
    by_cases hk : k = kind
    · subst hk
      rw [texturesOf_setTextures_self, List.length_set]
    · rw [texturesOf_setTextures_ne _ _ _ _ hk]
  | none =>
    rw [hA] at h
    dsimp only at h
    cases hPA : (s.push_texture size kind).1.allocate size with
    | none => rw [hPA] at h; cases h
    | some pr =>
      obtain ⟨tile0, t2⟩ := pr
      rw [hPA] at h
      dsimp only at h
      simp only [Option.some.injEq, Prod.mk.injEq] at h
      obtain ⟨rfl, rfl⟩ := h
      by_cases hk : k = kind
      · subst hk
        rw [texturesOf_setTextures_self, List.length_append]
        simp
      · rw [texturesOf_setTextures_ne _ _ _ _ hk,
          push_texture_texturesOf_ne _ _ _ _ hk]

theorem runAtlasAllocs_length_mono (kind : AtlasTextureKind) (szs : List Size) :
    ∀ (s : BladeAtlasState) (k : AtlasTextureKind),
      (s.texturesOf k).length ≤
        ((runAtlasAllocs s kind szs).2.texturesOf k).length := by
  induction szs with
  | nil => intro s k; simp [runAtlasAllocs]
  | cons sz rest ih =>
    intro s k
    cases hA : s.allocate sz kind with
    | none =>
      simp only [runAtlasAllocs, hA]
      exact ih s k
    | some pr =>
      obtain ⟨tile, s2⟩ := pr
      simp only [runAtlasAllocs, hA]
      exact Nat.le_trans (allocate_textures_length_mono s sz kind tile s2 hA k)
        (ih s2 k)

/-- Everything about a texture except its allocator's occupancy: GPU object
identity, id, format and allocator dimensions. -/
def texSameShape (t t0 : BladeAtlasTexture) : Prop :=
  t.id = t0.id ∧ t.raw = t0.raw ∧ t.raw_view = t0.raw_view ∧
  t.format = t0.format ∧ t.allocator.width = t0.allocator.width ∧
  t.allocator.height = t0.allocator.height

theorem texSameShape_refl (t : BladeAtlasTexture) : texSameShape t t :=
  ⟨rfl, rfl, rfl, rfl, rfl, rfl⟩

theorem texSameShape_trans {t1 t2 t3 : BladeAtlasTexture}
    (h1 : texSameShape t1 t2) (h2 : texSameShape t2 t3) : texSameShape t1 t3 :=
  ⟨h1.1.trans h2.1, h1.2.1.trans h2.2.1, h1.2.2.1.trans h2.2.2.1,
   h1.2.2.2.1.trans h2.2.2.2.1, h1.2.2.2.2.1.trans h2.2.2.2.2.1,
   h1.2.2.2.2.2.trans h2.2.2.2.2.2⟩

theorem run_single_texture (kind : AtlasTextureKind) (szs : List Size) :
    ∀ (s : BladeAtlasState) (t0 : BladeAtlasTexture),
      s.texturesOf kind = [t0] →
      ((runAtlasAllocs s kind szs).2.texturesOf kind).length = 1 →
      ∃ t, (runAtlasAllocs s kind szs).2 = s.setTextures kind [t] ∧
        texSameShape t t0 := by
  induction szs with
  | nil =>
    intro s t0 h0 hlen
    exact ⟨t0, (setTextures_eq_self s kind [t0] h0).symm, texSameShape_refl t0⟩
  | cons sz rest ih =>
    intro s t0 h0 hlen
    cases hFN : allocFromNewest sz (s.texturesOf kind) with
    | some pr =>
      obtain ⟨tile, ts2⟩ := pr
      have hA : s.allocate sz kind = some (tile, s.setTextures kind ts2) := by
        unfold BladeAtlasState.allocate
        rw [hFN]
      have hFN2 := hFN
      rw [h0] at hFN2
      simp only [allocFromNewest] at hFN2
      cases ht0A : t0.allocate sz with
      | none => rw [ht0A] at hFN2; cases hFN2
      | some pr2 =>
        obtain ⟨tile0, t2⟩ := pr2
        rw [ht0A] at hFN2
        dsimp only at hFN2
        simp only [Option.some.injEq, Prod.mk.injEq] at hFN2
        obtain ⟨rfl, rfl⟩ := hFN2
        obtain ⟨allocation, a2, hAidx, htile, ht2⟩ := texAllocate_spec _ _ _ _ ht0A
        have hdims := allocator_allocate_dims _ _ _ _ hAidx
        have hshape2 : texSameShape t2 t0 := by
          rw [ht2]
          exact ⟨rfl, rfl, rfl, rfl, hdims.1, hdims.2⟩
        have hself : (s.setTextures kind [t2]).texturesOf kind = [t2] :=
          texturesOf_setTextures_self _ _ _
        simp only [runAtlasAllocs, hA] at hlen ⊢
        obtain ⟨t, hfin, hshape⟩ := ih (s.setTextures kind [t2]) t2 hself hlen
        refine ⟨t, ?_, texSameShape_trans hshape hshape2⟩
        rw [hfin, setTextures_setTextures]
    | none =>
      exfalso
      obtain ⟨tile, t2, halloc, -, -⟩ := push_texture_allocate s sz kind
      have hA : s.allocate sz kind = some (tile,
          (s.push_texture sz kind).2.setTextures kind
            (s.texturesOf kind ++ [t2])) := by
        unfold BladeAtlasState.allocate
        rw [hFN]
        dsimp only
        rw [halloc]
      have hlen2 : (((s.push_texture sz kind).2.setTextures kind
          (s.texturesOf kind ++ [t2])).texturesOf kind).length = 2 := by
        rw [texturesOf_setTextures_self, List.length_append, h0]
        rfl
      have hmono := runAtlasAllocs_length_mono kind rest
        ((s.push_texture sz kind).2.setTextures kind
          (s.texturesOf kind ++ [t2])) kind
      simp only [runAtlasAllocs, hA] at hlen
      omega

theorem texture_ext (a b : BladeAtlasTexture) (h1 : a.id = b.id)
    (h2 : a.allocator = b.allocator) (h3 : a.raw = b.raw)
    (h4 : a.raw_view = b.raw_view) (h5 : a.format = b.format) : a = b := by
  cases a
  cases b
  simp_all

/-- C8 (amended): clear_textures resets every allocator of the kind to
fully free with unchanged dimensions, GPU handles, ids and pool length,
destroys and creates nothing, and touches no other state. Re-allocating
the same sizes after the clear is guaranteed to create no additional
texture when the kind held a single texture whose allocations all came
after its creation or last clear: clearing then restores the exact pre-run
state, so the re-run reproduces the original run tile for tile. (With
several textures this can fail — allocation retries newest-first — see the
counterexample.) -/
theorem clear_textures_reset (s : BladeAtlasState) (kind : AtlasTextureKind)
    (szs : List Size) (t0 : BladeAtlasTexture) :
    ((BladeAtlas.clear_textures s kind).texturesOf kind =
        (s.texturesOf kind).map BladeAtlasTexture.clear ∧
      ((BladeAtlas.clear_textures s kind).texturesOf kind).length =
        (s.texturesOf kind).length ∧
      (∀ k, k ≠ kind →
        (BladeAtlas.clear_textures s kind).texturesOf k = s.texturesOf k) ∧
      (BladeAtlas.clear_textures s kind).next_gpu_handle = s.next_gpu_handle ∧
      (BladeAtlas.clear_textures s kind).upload_belt = s.upload_belt ∧
      (BladeAtlas.clear_textures s kind).uploads = s.uploads ∧
      (∀ t : BladeAtlasTexture,
        (BladeAtlasTexture.clear t).raw = t.raw ∧
        (BladeAtlasTexture.clear t).raw_view = t.raw_view ∧
        (BladeAtlasTexture.clear t).id = t.id ∧
        (BladeAtlasTexture.clear t).allocator.shelves = [] ∧
        (BladeAtlasTexture.clear t).allocator.shelfTop = 0 ∧
        (BladeAtlasTexture.clear t).allocator.width = t.allocator.width ∧
        (BladeAtlasTexture.clear t).allocator.height = t.allocator.height)) ∧
    (s.texturesOf kind = [t0] → t0.allocator.clear = t0.allocator →
      ((runAtlasAllocs s kind szs).2.texturesOf kind).length = 1 →
      BladeAtlas.clear_textures (runAtlasAllocs s kind szs).2 kind = s ∧
      runAtlasAllocs (BladeAtlas.clear_textures
        (runAtlasAllocs s kind szs).2 kind) kind szs =
        runAtlasAllocs s kind szs) := by
  constructor
  · refine ⟨texturesOf_setTextures_self _ _ _, ?_, ?_, ?_, ?_, ?_, ?_⟩
    · rw [show (BladeAtlas.clear_textures s kind).texturesOf kind =
          (s.texturesOf kind).map BladeAtlasTexture.clear from
          texturesOf_setTextures_self _ _ _, List.length_map]
    · intro k hk
      exact texturesOf_setTextures_ne _ _ _ _ hk
    · cases kind <;> rfl
    · cases kind <;> rfl
    · cases kind <;> rfl
    · intro t
      exact ⟨rfl, rfl, rfl, rfl, rfl, rfl, rfl⟩
  · intro h0 hfresh hlen
    obtain ⟨t, hfin, hshape⟩ := run_single_texture kind szs s t0 h0 hlen
    have halloc_eq : t.allocator.clear = t0.allocator := by
      have hstep : t.allocator.clear = t0.allocator.clear := by
        unfold BucketedAtlasAllocator.clear
        rw [hshape.2.2.2.2.1, hshape.2.2.2.2.2]
      rw [hstep, hfresh]
    have ht_eq : BladeAtlasTexture.clear t = t0 :=
      texture_ext _ _ hshape.1 halloc_eq hshape.2.1 hshape.2.2.1 hshape.2.2.2.1
    have hclear_run :
        BladeAtlas.clear_textures (runAtlasAllocs s kind szs).2 kind = s := by
      rw [hfin]
      unfold BladeAtlas.clear_textures
      rw [texturesOf_setTextures_self, setTextures_setTextures]
      show s.setTextures kind [BladeAtlasTexture.clear t] = s
      rw [ht_eq]
      exact setTextures_eq_self s kind [t0] h0
    exact ⟨hclear_run, by rw [hclear_run]⟩

/-- Counterexample to C8 as originally stated: from a fresh atlas, the
sizes 1024x512, 1024x512, 1024x2048 produce two monochrome textures (the
first two fill the default 1024x1024 texture, the third gets a 1024x2048
texture of its own). After clear_textures, re-allocating the very same
sizes routes the two 1024x512 tiles into the newest (1024x2048) texture
first, fills it, and the 1024x2048 request then fits nowhere, creating a
third texture — the number of physical textures changes from 2 to 3. -/
theorem clear_textures_refit_counterexample :
    ((runAtlasAllocs BladeAtlasState.new AtlasTextureKind.monochrome
        [⟨1024, 512⟩, ⟨1024, 512⟩, ⟨1024, 2048⟩]).2.texturesOf
        AtlasTextureKind.monochrome).length = 2 ∧
    ((runAtlasAllocs (BladeAtlas.clear_textures
        (runAtlasAllocs BladeAtlasState.new AtlasTextureKind.monochrome
          [⟨1024, 512⟩, ⟨1024, 512⟩, ⟨1024, 2048⟩]).2 AtlasTextureKind.monochrome)
        AtlasTextureKind.monochrome
        [⟨1024, 512⟩, ⟨1024, 512⟩, ⟨1024, 2048⟩]).2.texturesOf
        AtlasTextureKind.monochrome).length = 3 := by
  decide

/-- The demonstration state with its monochrome pool cleared: one fresh
1024x1024 texture. -/
def demoStateCleared : BladeAtlasState :=
  BladeAtlas.clear_textures demoState1 AtlasTextureKind.monochrome

/-- That pool's single texture after the clear. -/
def demoTexCleared : BladeAtlasTexture :=
  ⟨⟨0, AtlasTextureKind.monochrome⟩, ⟨1024, 1024, [], 0, 0⟩, 0,
   none, TextureFormat.r8Unorm⟩

/-- Witness for clear_textures_reset: the demonstration state's cleared
monochrome pool holds one fresh texture; one 16x16 allocation stays within
it, and clearing again restores the pre-run state exactly, so the re-run
reproduces the run. -/
theorem clear_textures_reset_witness :
    ((BladeAtlas.clear_textures demoStateCleared
        AtlasTextureKind.monochrome).texturesOf
        AtlasTextureKind.monochrome).length =
      (demoStateCleared.texturesOf AtlasTextureKind.monochrome).length ∧
    BladeAtlas.clear_textures (runAtlasAllocs demoStateCleared
        AtlasTextureKind.monochrome [⟨16, 16⟩]).2 AtlasTextureKind.monochrome =
      demoStateCleared ∧
    runAtlasAllocs (BladeAtlas.clear_textures
        (runAtlasAllocs demoStateCleared AtlasTextureKind.monochrome
          [⟨16, 16⟩]).2 AtlasTextureKind.monochrome)
        AtlasTextureKind.monochrome [⟨16, 16⟩] =
      runAtlasAllocs demoStateCleared AtlasTextureKind.monochrome [⟨16, 16⟩] := by
  have h := clear_textures_reset demoStateCleared AtlasTextureKind.monochrome
    [⟨16, 16⟩] demoTexCleared
  have h2 := h.2 (by decide) (by decide) (by decide)
  exact ⟨h.1.2.1, h2.1, h2.2⟩

end BladeSpec
